import Mathlib

/-!
Verification of the core search engine of the matching-epea-star repository
(a Multi-Agent Path Finding with Matching solver) against its specification.

The Python sources under `src/` are embedded shallowly:
* `src/astar/operator_finder.py` — the `OperatorFinder` combinatorial enumerator;
* `src/solver/epeastar/mapf_problem.py` — OSF table generation, child
  construction and conflict filtering;
* `src/solver/epeastar/independence_detection.py` — the ID meta-search.

Data types whose defining files are absent from the source tree
(`Direction`, `Coordinate`, `Agent`, `Node`, `Path`, `PathSet`, and the
`EPEAStar` solver) are modelled from the specification, as noted on each
definition.
-/

/-- Modelled from the spec: a move direction, one of N, E, S, W, WAIT
(`src/util/direction.py` is absent from the source tree).  Each non-WAIT
direction has a unit (dx, dy) offset; WAIT has offset (0, 0). -/
inductive Dir : Type where
  | north
  | east
  | south
  | west
  | wait
deriving DecidableEq, Repr

/-- Horizontal offset of a direction. -/
def Dir.dx : Dir → ℤ
  | .north => 0
  | .east => 1
  | .south => 0
  | .west => -1
  | .wait => 0

/-- Vertical offset of a direction. -/
def Dir.dy : Dir → ℤ
  | .north => -1
  | .east => 0
  | .south => 1
  | .west => 0
  | .wait => 0

/-!  ### OperatorFinder (`src/astar/operator_finder.py`)

The Python class stores mutable fields `operators` and `next_target_value`;
the embedding passes that pair of fields explicitly.  The element type of a
row is kept generic (`α`), as the Python code is: the EPEA* caller
instantiates it with direction bundles (`List Dir`). -/

/-- The mutable state of an `OperatorFinder` instance: the accepted operator
tuples and the smallest overshooting sum seen so far (`float('inf')` is
modelled by `⊤ : WithTop ℤ`). -/
structure OFSt (α : Type) where
  operators : List (List α)
  next_target_value : WithTop ℤ
deriving DecidableEq

/-- Embeds `min_values[i]` from `OperatorFinder.__init__`: the sum of the
first-row delta values of all agents strictly after the current one (here,
of all lists in `rest`).  An empty row list contributes `0`; the Python code
would fail there, and all theorems assume non-empty row lists. -/
def min_tail {α : Type} (rest : List (List (α × ℤ))) : ℤ :=
  (rest.map (fun ops => match ops with | [] => 0 | r :: _ => r.2)).sum

/-- Embeds `max_values[i]` from `OperatorFinder.__init__`: the sum of the
last-row delta values of all agents strictly after the current one. -/
def max_tail {α : Type} (rest : List (List (α × ℤ))) : ℤ :=
  (rest.map (fun ops => match ops.getLast? with | none => 0 | some r => r.2)).sum

/-- Embeds the row loop of `OperatorFinder.find_operators` for one agent.
`rest` holds the row lists of the agents after the current one, and `recur`
is the recursive call into the next agent (`find_operators` applied to
`rest`).  The Python `assert self.next_target_value > self.target_sum`
placed after the recursive call carries no state change; its condition is
proved below (claim C8). -/
def find_loop {α : Type} (T : ℤ) (rest : List (List (α × ℤ)))
    (recur : List α → ℤ → OFSt α → OFSt α) :
    List (α × ℤ) → List α → ℤ → OFSt α → OFSt α
  | [], _, _, st => st
  | (a, df) :: rows, prevOps, prevSum, st =>
    let currentOps := prevOps ++ [a]
    let currentSum := prevSum + df
    if T < currentSum + min_tail rest then
      { st with
        next_target_value := min st.next_target_value
          ((currentSum + min_tail rest : ℤ) : WithTop ℤ) }
    else if rest.isEmpty then
      let st' := if currentSum = T then
          { st with operators := st.operators ++ [currentOps] } else st
      find_loop T rest recur rows prevOps prevSum st'
    else if currentSum + max_tail rest < T then
      find_loop T rest recur rows prevOps prevSum st
    else
      find_loop T rest recur rows prevOps prevSum (recur currentOps currentSum st)

/-- Embeds `OperatorFinder.find_operators`, recursing over the per-agent row
lists (the Python index `current_agent` selects the head; `rest` holds the
later agents).  `prevOps` and `prevSum` are the accumulated choices and
their delta sum; the state threads `self.operators` and
`self.next_target_value`. -/
def find_operators {α : Type} (T : ℤ) :
    List (List (α × ℤ)) → List α → ℤ → OFSt α → OFSt α
  | [] => fun _ _ st => st
  | rows :: rest => fun prevOps prevSum st =>
      find_loop T rest (find_operators T rest) rows prevOps prevSum st

/-- Embeds `OperatorFinder(target_sum, agent_operators)` followed by
`find_operators(0, [], 0)`: the fields start as `operators = []` and
`next_target_value = inf`. -/
def OperatorFinder.run {α : Type} (T : ℤ) (agent_operators : List (List (α × ℤ))) :
    OFSt α :=
  find_operators T agent_operators [] 0 ⟨[], ⊤⟩

/-!  ### Specification of the Operator Finder

The specification quantities: all one-row-per-agent selections, their delta
sums, and the minimum achievable sum above the target. -/

/-- All ways of picking one element from each list in order (one OSF row per
agent), enumerated first-agent-outermost as the Python recursion does. -/
def selections {β : Type} : List (List β) → List (List β)
  | [] => [[]]
  | l :: ls => l.flatMap (fun x => (selections ls).map (fun s => x :: s))

/-- The total delta value of a selection of rows. -/
def selSum {α : Type} (s : List (α × ℤ)) : ℤ :=
  (s.map Prod.snd).sum

/-- Minimum of a list of integers in `WithTop ℤ`; the empty list has
minimum `⊤` (no achievable value). -/
def listInf (l : List ℤ) : WithTop ℤ :=
  l.foldr (fun z m => min ((z : ℤ) : WithTop ℤ) m) ⊤

/-- The tuples the finder must accept below a prefix: all selections from
`lists` whose delta sum together with `prevSum` is exactly `T`, each
projected to its payloads behind the already chosen `prevOps`. -/
def acceptedFor {α : Type} (T : ℤ) (lists : List (List (α × ℤ)))
    (prevOps : List α) (prevSum : ℤ) : List (List α) :=
  ((selections lists).filter (fun s => decide (prevSum + selSum s = T))).map
    (fun s => prevOps ++ s.map Prod.fst)

/-- The minimum selection sum strictly above the target below a prefix, or
`⊤` when no selection overshoots. -/
def nextFor {α : Type} (T : ℤ) (lists : List (List (α × ℤ))) (prevSum : ℤ) :
    WithTop ℤ :=
  listInf (((selections lists).map (fun s => prevSum + selSum s)).filter
    (fun z => decide (T < z)))

theorem selSum_nil {α : Type} : selSum ([] : List (α × ℤ)) = 0 := rfl

theorem selSum_cons {α : Type} (x : α × ℤ) (s : List (α × ℤ)) :
    selSum (x :: s) = x.2 + selSum s := by
  simp [selSum]

theorem selections_nil_cons {β : Type} (ls : List (List β)) :
    selections ([] :: ls) = [] := by
  simp [selections]

theorem selections_cons_cons {β : Type} (x : β) (l : List β) (ls : List (List β)) :
    selections ((x :: l) :: ls) =
      ((selections ls).map (fun s => x :: s)) ++ selections (l :: ls) := by
  simp [selections]

theorem mem_selections_cons {β : Type} {s : List β} {l : List β} {ls : List (List β)} :
    s ∈ selections (l :: ls) ↔ ∃ x ∈ l, ∃ t ∈ selections ls, s = x :: t := by
  simp only [selections, List.mem_flatMap, List.mem_map]
  constructor
  · rintro ⟨x, hx, t, ht, rfl⟩
    exact ⟨x, hx, t, ht, rfl⟩
  · rintro ⟨x, hx, t, ht, rfl⟩
    exact ⟨x, hx, t, ht, rfl⟩

theorem length_of_mem_selections {β : Type} :
    ∀ {ls : List (List β)} {s : List β}, s ∈ selections ls → s.length = ls.length
  | [], s, hs => by
      simp [selections] at hs
      simp [hs]
  | l :: ls, s, hs => by
      rcases mem_selections_cons.mp hs with ⟨x, _, t, ht, rfl⟩
      simp [length_of_mem_selections ht]

theorem listInf_foldr (A : List ℤ) (m : WithTop ℤ) :
    A.foldr (fun z m => min ((z : ℤ) : WithTop ℤ) m) m = min (listInf A) m := by
  induction A with
  | nil => simp [listInf]
  | cons a A ih => simp [listInf, ih, min_assoc]

theorem listInf_append (A B : List ℤ) :
    listInf (A ++ B) = min (listInf A) (listInf B) := by
  rw [listInf, List.foldr_append, listInf_foldr]
  rfl

theorem listInf_le {a : ℤ} {l : List ℤ} (h : a ∈ l) :
    listInf l ≤ ((a : ℤ) : WithTop ℤ) := by
  induction l with
  | nil => simp at h
  | cons x t ih =>
      rcases List.mem_cons.mp h with rfl | h'
      · simp [listInf]
      · calc listInf (x :: t) ≤ listInf t := by simp [listInf]
          _ ≤ _ := ih h'

theorem le_listInf {a : ℤ} {l : List ℤ} (h : ∀ x ∈ l, a ≤ x) :
    ((a : ℤ) : WithTop ℤ) ≤ listInf l := by
  induction l with
  | nil => simp [listInf]
  | cons x t ih =>
      refine le_min ?_ (ih fun y hy => h y (List.mem_cons_of_mem _ hy))
      exact_mod_cast h x (List.mem_cons_self _ _)

theorem listInf_eq_coe {a : ℤ} {l : List ℤ} (hmem : a ∈ l) (hle : ∀ x ∈ l, a ≤ x) :
    listInf l = ((a : ℤ) : WithTop ℤ) :=
  le_antisymm (listInf_le hmem) (le_listInf hle)

theorem min_tail_le_selSum {α : Type} :
    ∀ {ls : List (List (α × ℤ))},
      (∀ l ∈ ls, List.Pairwise (fun r s => r.2 ≤ s.2) l) →
      ∀ s ∈ selections ls, min_tail ls ≤ selSum s
  | [], _, s, hs => by
      simp [selections] at hs
      simp [hs, min_tail, selSum]
  | l :: ls, hsort, s, hs => by
      rcases mem_selections_cons.mp hs with ⟨x, hx, t, ht, rfl⟩
      have hrec := min_tail_le_selSum (fun l' hl' => hsort l' (List.mem_cons_of_mem _ hl')) t ht
      rcases l with _ | ⟨r, l'⟩
      · simp at hx
      · have hhead : r.2 ≤ x.2 := by
          rcases List.mem_cons.mp hx with rfl | hx'
          · exact le_refl _
          · exact (List.pairwise_cons.mp (hsort _ (List.mem_cons_self _ _))).1 x hx'
        simp only [min_tail, List.map_cons, List.sum_cons, selSum_cons] at *
        omega

theorem exists_selection_min_tail {α : Type} :
    ∀ {ls : List (List (α × ℤ))}, (∀ l ∈ ls, l ≠ []) →
      ∃ s ∈ selections ls, selSum s = min_tail ls
  | [], _ => ⟨[], by simp [selections], by simp [selSum, min_tail]⟩
  | l :: ls, hne => by
      rcases exists_selection_min_tail (fun l' hl' => hne l' (List.mem_cons_of_mem _ hl'))
        with ⟨t, ht, hsum⟩
      rcases l with _ | ⟨r, l'⟩
      · exact absurd rfl (hne [] (List.mem_cons_self _ _))
      · refine ⟨r :: t, ?_, ?_⟩
        · exact mem_selections_cons.mpr ⟨r, List.mem_cons_self _ _, t, ht, rfl⟩
        · simp [selSum_cons, hsum, min_tail]

theorem le_getLast_snd {α : Type} :
    ∀ {l : List (α × ℤ)}, List.Pairwise (fun r s => r.2 ≤ s.2) l →
      ∀ x ∈ l, x.2 ≤ (match l.getLast? with | none => 0 | some r => r.2)
  | [], _, x, hx => by simp at hx
  | [r], _, x, hx => by
      simp at hx
      simp [hx]
  | r :: r' :: l', hsort, x, hx => by
      have htail := le_getLast_snd (List.pairwise_cons.mp hsort).2
      have hlast : (r :: r' :: l').getLast? = (r' :: l').getLast? := by
        simp [List.getLast?_cons_cons]
      rw [hlast]
      rcases List.mem_cons.mp hx with rfl | hx'
      · calc x.2 ≤ r'.2 := (List.pairwise_cons.mp hsort).1 r' (List.mem_cons_self _ _)
          _ ≤ _ := htail r' (List.mem_cons_self _ _)
      · exact htail x hx'

theorem selSum_le_max_tail {α : Type} :
    ∀ {ls : List (List (α × ℤ))},
      (∀ l ∈ ls, List.Pairwise (fun r s => r.2 ≤ s.2) l) →
      ∀ s ∈ selections ls, selSum s ≤ max_tail ls
  | [], _, s, hs => by
      simp [selections] at hs
      simp [hs, max_tail, selSum]
  | l :: ls, hsort, s, hs => by
      rcases mem_selections_cons.mp hs with ⟨x, hx, t, ht, rfl⟩
      have hrec := selSum_le_max_tail (fun l' hl' => hsort l' (List.mem_cons_of_mem _ hl')) t ht
      have hlast := le_getLast_snd (hsort l (List.mem_cons_self _ _)) x hx
      simp only [max_tail, List.map_cons, List.sum_cons, selSum_cons] at *
      omega

theorem acceptedFor_nil {α : Type} (T : ℤ) (pO : List α) (pS : ℤ) :
    acceptedFor T [] pO pS = if pS = T then [pO] else [] := by
  by_cases h : pS = T <;> simp [acceptedFor, selections, selSum, h]

theorem nextFor_nil {α : Type} (T pS : ℤ) :
    nextFor T ([] : List (List (α × ℤ))) pS =
      if T < pS then ((pS : ℤ) : WithTop ℤ) else ⊤ := by
  by_cases h : T < pS <;> simp [nextFor, selections, selSum, listInf, h]

theorem acceptedFor_nil_cons {α : Type} (T : ℤ) (ls : List (List (α × ℤ)))
    (pO : List α) (pS : ℤ) : acceptedFor T ([] :: ls) pO pS = [] := by
  simp [acceptedFor, selections_nil_cons]

theorem nextFor_nil_cons {α : Type} (T : ℤ) (ls : List (List (α × ℤ))) (pS : ℤ) :
    nextFor T ([] :: ls) pS = ⊤ := by
  simp [nextFor, selections_nil_cons, listInf]

theorem acceptedFor_cons_cons {α : Type} (T : ℤ) (x : α × ℤ) (l : List (α × ℤ))
    (ls : List (List (α × ℤ))) (pO : List α) (pS : ℤ) :
    acceptedFor T ((x :: l) :: ls) pO pS =
      acceptedFor T ls (pO ++ [x.1]) (pS + x.2) ++ acceptedFor T (l :: ls) pO pS := by
  unfold acceptedFor
  rw [selections_cons_cons, List.filter_append, List.map_append, List.filter_map,
    List.map_map]
  congr 1
  have h1 : ∀ s ∈ selections ls,
      ((fun s => decide (pS + selSum s = T)) ∘ (fun s => x :: s)) s =
        (fun s => decide (pS + x.2 + selSum s = T)) s := by
    intro s _
    simp [Function.comp, selSum_cons, add_assoc]
  rw [List.filter_congr h1]
  refine List.map_congr_left ?_
  intro s _
  simp [Function.comp]

theorem nextFor_cons_cons {α : Type} (T : ℤ) (x : α × ℤ) (l : List (α × ℤ))
    (ls : List (List (α × ℤ))) (pS : ℤ) :
    nextFor T ((x :: l) :: ls) pS =
      min (nextFor T ls (pS + x.2)) (nextFor T (l :: ls) pS) := by
  unfold nextFor
  rw [selections_cons_cons, List.map_append, List.filter_append, listInf_append,
    List.map_map]
  congr 3
  refine List.map_congr_left ?_
  intro s _
  simp [Function.comp, selSum_cons, add_assoc]

theorem selSum_lower_bound {α : Type} {x : α × ℤ} {l : List (α × ℤ)}
    {ls : List (List (α × ℤ))}
    (hsc : List.Pairwise (fun r s => r.2 ≤ s.2) (x :: l))
    (hsr : ∀ l' ∈ ls, List.Pairwise (fun r s => r.2 ≤ s.2) l') :
    ∀ s ∈ selections ((x :: l) :: ls), x.2 + min_tail ls ≤ selSum s := by
  intro s hs
  rcases mem_selections_cons.mp hs with ⟨y, hy, t, ht, rfl⟩
  have h1 : x.2 ≤ y.2 := by
    rcases List.mem_cons.mp hy with rfl | hy'
    · exact le_refl _
    · exact (List.pairwise_cons.mp hsc).1 y hy'
  have h2 := min_tail_le_selSum hsr t ht
  rw [selSum_cons]
  omega

theorem nextFor_prune {α : Type} (T : ℤ) {x : α × ℤ} {l : List (α × ℤ)}
    {ls : List (List (α × ℤ))} (pS : ℤ)
    (hsc : List.Pairwise (fun r s => r.2 ≤ s.2) (x :: l))
    (hsr : ∀ l' ∈ ls, List.Pairwise (fun r s => r.2 ≤ s.2) l')
    (hnr : ∀ l' ∈ ls, l' ≠ [])
    (hgt : T < pS + x.2 + min_tail ls) :
    nextFor T ((x :: l) :: ls) pS = ((pS + x.2 + min_tail ls : ℤ) : WithTop ℤ) := by
  have hlb : ∀ s ∈ selections ((x :: l) :: ls), pS + x.2 + min_tail ls ≤ pS + selSum s := by
    intro s hs
    have := selSum_lower_bound hsc hsr s hs
    omega
  unfold nextFor
  have hfil : ((selections ((x :: l) :: ls)).map (fun s => pS + selSum s)).filter
      (fun z => decide (T < z)) =
      (selections ((x :: l) :: ls)).map (fun s => pS + selSum s) := by
    refine List.filter_eq_self.mpr ?_
    intro z hz
    rcases List.mem_map.mp hz with ⟨s, hs, rfl⟩
    have := hlb s hs
    simp
    omega
  rw [hfil]
  refine listInf_eq_coe ?_ ?_
  · rcases exists_selection_min_tail hnr with ⟨t, ht, hts⟩
    refine List.mem_map.mpr ⟨x :: t, ?_, ?_⟩
    · exact mem_selections_cons.mpr ⟨x, List.mem_cons_self _ _, t, ht, rfl⟩
    · rw [selSum_cons, hts]
      ring
  · intro z hz
    rcases List.mem_map.mp hz with ⟨s, hs, rfl⟩
    exact hlb s hs

theorem acceptedFor_prune {α : Type} (T : ℤ) {x : α × ℤ} {l : List (α × ℤ)}
    {ls : List (List (α × ℤ))} (pO : List α) (pS : ℤ)
    (hsc : List.Pairwise (fun r s => r.2 ≤ s.2) (x :: l))
    (hsr : ∀ l' ∈ ls, List.Pairwise (fun r s => r.2 ≤ s.2) l')
    (hgt : T < pS + x.2 + min_tail ls) :
    acceptedFor T ((x :: l) :: ls) pO pS = [] := by
  unfold acceptedFor
  have hfil : (selections ((x :: l) :: ls)).filter
      (fun s => decide (pS + selSum s = T)) = [] := by
    refine List.filter_eq_nil_iff.mpr ?_
    intro s hs
    have := selSum_lower_bound hsc hsr s hs
    simp
    omega
  rw [hfil, List.map_nil]

theorem acceptedFor_skip {α : Type} (T : ℤ) {ls : List (List (α × ℤ))}
    (pO : List α) (pS : ℤ)
    (hlt : ∀ s ∈ selections ls, pS + selSum s < T) :
    acceptedFor T ls pO pS = [] := by
  unfold acceptedFor
  have hfil : (selections ls).filter (fun s => decide (pS + selSum s = T)) = [] := by
    refine List.filter_eq_nil_iff.mpr ?_
    intro s hs
    have := hlt s hs
    simp
    omega
  rw [hfil, List.map_nil]

theorem nextFor_skip {α : Type} (T : ℤ) {ls : List (List (α × ℤ))} (pS : ℤ)
    (hlt : ∀ s ∈ selections ls, pS + selSum s < T) :
    nextFor T ls pS = ⊤ := by
  unfold nextFor
  have hfil : ((selections ls).map (fun s => pS + selSum s)).filter
      (fun z => decide (T < z)) = [] := by
    refine List.filter_eq_nil_iff.mpr ?_
    intro z hz
    rcases List.mem_map.mp hz with ⟨s, hs, rfl⟩
    have := hlt s hs
    simp
    omega
  rw [hfil]
  rfl

theorem find_loop_spec {α : Type} (T : ℤ) (rest : List (List (α × ℤ)))
    (recur : List α → ℤ → OFSt α → OFSt α)
    (hrecur : rest ≠ [] → ∀ pO pS st, recur pO pS st =
      ⟨st.operators ++ acceptedFor T rest pO pS,
       min st.next_target_value (nextFor T rest pS)⟩)
    (hnr : ∀ l ∈ rest, l ≠ [])
    (hsr : ∀ l ∈ rest, List.Pairwise (fun r s => r.2 ≤ s.2) l) :
    ∀ rows : List (α × ℤ), List.Pairwise (fun r s => r.2 ≤ s.2) rows →
      ∀ (pO : List α) (pS : ℤ) (st : OFSt α),
        find_loop T rest recur rows pO pS st =
          ⟨st.operators ++ acceptedFor T (rows :: rest) pO pS,
           min st.next_target_value (nextFor T (rows :: rest) pS)⟩ := by
  intro rows
  induction rows with
  | nil =>
      intro _ pO pS st
      simp [find_loop, acceptedFor_nil_cons, nextFor_nil_cons]
  | cons hd rows ih =>
      obtain ⟨a, df⟩ := hd
      intro hsortr pO pS st
      have hsrows := (List.pairwise_cons.mp hsortr).2
      by_cases hA : T < pS + df + min_tail rest
      · have hstep : find_loop T rest recur ((a, df) :: rows) pO pS st =
            { st with
              next_target_value := min st.next_target_value
                ((pS + df + min_tail rest : ℤ) : WithTop ℤ) } := by
          simp only [find_loop]
          rw [if_pos hA]
        rw [hstep, acceptedFor_prune T pO pS hsortr hsr hA,
          nextFor_prune T pS hsortr hsr hnr hA]
        simp
      · by_cases hrne : rest = []
        · subst hrne
          have hle : pS + df ≤ T := by
            simp [min_tail] at hA
            omega
          have hstep : find_loop T [] recur ((a, df) :: rows) pO pS st =
              find_loop T [] recur rows pO pS
                (if pS + df = T then
                  { st with operators := st.operators ++ [pO ++ [a]] } else st) := by
            simp only [find_loop, List.isEmpty_nil, if_true]
            rw [if_neg hA]
          rw [hstep, ih hsrows]
          rw [acceptedFor_cons_cons, nextFor_cons_cons, acceptedFor_nil, nextFor_nil]
          have hnlt : ¬ T < pS + df := by omega
          rw [if_neg hnlt]
          by_cases hT : pS + df = T
          · simp [hT, List.append_assoc]
          · simp [hT]
        · have hrEmp : rest.isEmpty = false := by
            cases rest with
            | nil => exact absurd rfl hrne
            | cons x xs => rfl
          by_cases hC : pS + df + max_tail rest < T
          · have hstep : find_loop T rest recur ((a, df) :: rows) pO pS st =
                find_loop T rest recur rows pO pS st := by
              simp only [find_loop]
              rw [if_neg hA, hrEmp, if_pos hC]
              simp
            rw [hstep, ih hsrows]
            have hlt : ∀ s ∈ selections rest, (pS + df) + selSum s < T := by
              intro s hs
              have := selSum_le_max_tail hsr s hs
              omega
            rw [acceptedFor_cons_cons, nextFor_cons_cons,
              acceptedFor_skip T _ _ hlt, nextFor_skip T _ hlt]
            simp
          · have hstep : find_loop T rest recur ((a, df) :: rows) pO pS st =
                find_loop T rest recur rows pO pS (recur (pO ++ [a]) (pS + df) st) := by
              simp only [find_loop]
              rw [if_neg hA, hrEmp, if_neg hC]
              simp
            rw [hstep, hrecur hrne, ih hsrows]
            rw [acceptedFor_cons_cons, nextFor_cons_cons]
            simp [List.append_assoc, min_assoc]

theorem find_operators_spec {α : Type} (T : ℤ) :
    ∀ lists : List (List (α × ℤ)), lists ≠ [] →
      (∀ l ∈ lists, l ≠ []) →
      (∀ l ∈ lists, List.Pairwise (fun r s => r.2 ≤ s.2) l) →
      ∀ (pO : List α) (pS : ℤ) (st : OFSt α),
        find_operators T lists pO pS st =
          ⟨st.operators ++ acceptedFor T lists pO pS,
           min st.next_target_value (nextFor T lists pS)⟩
  | [], h, _, _ => absurd rfl h
  | rows :: rest, _, hne, hsort => by
      intro pO pS st
      have hrec : rest ≠ [] → ∀ pO pS st, find_operators T rest pO pS st =
          ⟨st.operators ++ acceptedFor T rest pO pS,
           min st.next_target_value (nextFor T rest pS)⟩ := by
        intro hrne
        exact find_operators_spec T rest hrne
          (fun l hl => hne l (List.mem_cons_of_mem _ hl))
          (fun l hl => hsort l (List.mem_cons_of_mem _ hl))
      show find_loop T rest (find_operators T rest) rows pO pS st = _
      exact find_loop_spec T rest (find_operators T rest) hrec
        (fun l hl => hne l (List.mem_cons_of_mem _ hl))
        (fun l hl => hsort l (List.mem_cons_of_mem _ hl))
        rows (hsort rows (List.mem_cons_self _ _)) pO pS st

/-- C1: for every target sum `T` and per-agent list of OSF rows, each list
non-empty and sorted ascending by delta value, after
`OperatorFinder(T, rows).find_operators(0, [], 0)` returns, every tuple
stored in `operators` assigns one row per agent and its delta values sum to
exactly `T`, and `next_target_value` equals the minimum selection sum that
is strictly greater than `T`, or `⊤` (infinity) if no such sum is
achievable. -/
theorem operator_finder_correct {α : Type} (T : ℤ)
    (agent_operators : List (List (α × ℤ)))
    (hne : agent_operators ≠ [])
    (hnel : ∀ l ∈ agent_operators, l ≠ [])
    (hsort : ∀ l ∈ agent_operators, List.Pairwise (fun r s => r.2 ≤ s.2) l) :
    (∀ ops ∈ (OperatorFinder.run T agent_operators).operators,
      ∃ sel ∈ selections agent_operators,
        ops = sel.map Prod.fst ∧ sel.length = agent_operators.length ∧
          selSum sel = T) ∧
    (OperatorFinder.run T agent_operators).next_target_value =
      listInf (((selections agent_operators).map selSum).filter
        (fun z => decide (T < z))) := by
  have h := find_operators_spec T agent_operators hne hnel hsort [] 0 ⟨[], ⊤⟩
  rw [OperatorFinder.run, h]
  constructor
  · intro ops hops
    simp only [List.nil_append] at hops
    unfold acceptedFor at hops
    rcases List.mem_map.mp hops with ⟨sel, hsel, rfl⟩
    have hmem := List.mem_filter.mp hsel
    have hsum : 0 + selSum sel = T := of_decide_eq_true hmem.2
    exact ⟨sel, hmem.1, by simp, length_of_mem_selections hmem.1, by omega⟩
  · show min ⊤ (nextFor T agent_operators 0) = _
    rw [min_eq_right le_top]
    unfold nextFor
    congr 2
    refine List.map_congr_left ?_
    intro s _
    omega

/-- One accepted operator tuple of the run in `operator_finder_correct_witness`
below, evaluated on concrete rows. -/
theorem operator_finder_correct_witness :
    (([[((0 : ℕ), (1 : ℤ)), (1, 2)], [(10, 1)]] : List (List (ℕ × ℤ))) ≠ [] ∧
      (∀ l ∈ ([[((0 : ℕ), (1 : ℤ)), (1, 2)], [(10, 1)]] : List (List (ℕ × ℤ))), l ≠ []) ∧
      (∀ l ∈ ([[((0 : ℕ), (1 : ℤ)), (1, 2)], [(10, 1)]] : List (List (ℕ × ℤ))),
        List.Pairwise (fun r s => r.2 ≤ s.2) l)) ∧
    ((∀ ops ∈ (OperatorFinder.run 3 [[((0 : ℕ), (1 : ℤ)), (1, 2)], [(10, 1)]]).operators,
      ∃ sel ∈ selections [[((0 : ℕ), (1 : ℤ)), (1, 2)], [(10, 1)]],
        ops = sel.map Prod.fst ∧
          sel.length = ([[((0 : ℕ), (1 : ℤ)), (1, 2)], [(10, 1)]] : List (List (ℕ × ℤ))).length ∧
          selSum sel = 3) ∧
    (OperatorFinder.run 3 [[((0 : ℕ), (1 : ℤ)), (1, 2)], [(10, 1)]]).next_target_value =
      listInf (((selections [[((0 : ℕ), (1 : ℤ)), (1, 2)], [(10, 1)]]).map selSum).filter
        (fun z => decide ((3 : ℤ) < z)))) :=
  ⟨⟨by decide, by decide, by decide⟩,
    operator_finder_correct 3 [[((0 : ℕ), (1 : ℤ)), (1, 2)], [(10, 1)]]
      (by decide) (by decide) (by decide)⟩

theorem find_loop_next_gt {α : Type} (T : ℤ) (rest : List (List (α × ℤ)))
    (recur : List α → ℤ → OFSt α → OFSt α)
    (hrec : ∀ pO pS st, ((T : ℤ) : WithTop ℤ) < st.next_target_value →
      ((T : ℤ) : WithTop ℤ) < (recur pO pS st).next_target_value) :
    ∀ (rows : List (α × ℤ)) (pO : List α) (pS : ℤ) (st : OFSt α),
      ((T : ℤ) : WithTop ℤ) < st.next_target_value →
      ((T : ℤ) : WithTop ℤ) < (find_loop T rest recur rows pO pS st).next_target_value := by
  intro rows
  induction rows with
  | nil =>
      intro pO pS st h
      simpa [find_loop] using h
  | cons hd rows ih =>
      obtain ⟨a, df⟩ := hd
      intro pO pS st h
      by_cases hA : T < pS + df + min_tail rest
      · have hstep : find_loop T rest recur ((a, df) :: rows) pO pS st =
            { st with
              next_target_value := min st.next_target_value
                ((pS + df + min_tail rest : ℤ) : WithTop ℤ) } := by
          simp only [find_loop]
          rw [if_pos hA]
        rw [hstep]
        exact lt_min h (by exact_mod_cast hA)
      · by_cases hE : rest.isEmpty
        · have hstep : find_loop T rest recur ((a, df) :: rows) pO pS st =
              find_loop T rest recur rows pO pS
                (if pS + df = T then
                  { st with operators := st.operators ++ [pO ++ [a]] } else st) := by
            simp only [find_loop]
            rw [if_neg hA, if_pos hE]
          rw [hstep]
          refine ih pO pS _ ?_
          by_cases hT : pS + df = T <;> simp [hT, h]
        · by_cases hC : pS + df + max_tail rest < T
          · have hstep : find_loop T rest recur ((a, df) :: rows) pO pS st =
                find_loop T rest recur rows pO pS st := by
              simp only [find_loop]
              rw [if_neg hA, if_neg hE, if_pos hC]
            rw [hstep]
            exact ih pO pS st h
          · have hstep : find_loop T rest recur ((a, df) :: rows) pO pS st =
                find_loop T rest recur rows pO pS (recur (pO ++ [a]) (pS + df) st) := by
              simp only [find_loop]
              rw [if_neg hA, if_neg hE, if_neg hC]
            rw [hstep]
            exact ih pO pS _ (hrec _ _ st h)

/-- C8: the assertion `self.next_target_value > self.target_sum` in
`OperatorFinder.find_operators` never fails: for every call of
`find_operators` (in particular every recursive call, with any reachable
accumulated operators, sum and state), if `next_target_value` exceeds the
target before the call — as it does initially, being infinite — then it
still exceeds the target when the call returns, so it is either infinite or
strictly greater than `target_sum` at every point where the assertion runs. -/
theorem operator_finder_assert_never_fails {α : Type} (T : ℤ)
    (lists : List (List (α × ℤ))) (prevOps : List α) (prevSum : ℤ) (st : OFSt α)
    (h : ((T : ℤ) : WithTop ℤ) < st.next_target_value) :
    ((T : ℤ) : WithTop ℤ) <
      (find_operators T lists prevOps prevSum st).next_target_value := by
  induction lists generalizing prevOps prevSum st with
  | nil => simpa [find_operators] using h
  | cons rows rest ih =>
      show ((T : ℤ) : WithTop ℤ) <
        (find_loop T rest (find_operators T rest) rows prevOps prevSum st).next_target_value
      exact find_loop_next_gt T rest (find_operators T rest)
        (fun pO pS st' h' => ih pO pS st' h') rows prevOps prevSum st h

/-- The assertion invariant evaluated on a concrete finder state. -/
theorem operator_finder_assert_never_fails_witness :
    (((0 : ℤ) : WithTop ℤ) < (⊤ : WithTop ℤ)) ∧
    ((0 : ℤ) : WithTop ℤ) <
      (find_operators 0 [[((7 : ℕ), (1 : ℤ))], [(8, 2)]] [] 0
        ⟨[], ⊤⟩).next_target_value :=
  ⟨by simp,
    operator_finder_assert_never_fails 0 [[((7 : ℕ), (1 : ℤ))], [(8, 2)]] [] 0
      ⟨[], ⊤⟩ (by simp)⟩

/-!  ### The MAPF problem (`src/solver/epeastar/mapf_problem.py`) -/

/-- Modelled from the spec: a grid coordinate (`src/util/coordinate.py` is
absent from the source tree). -/
structure Coord where
  x : ℤ
  y : ℤ
deriving DecidableEq, Repr

/-- Modelled from the spec: moving a coordinate one step in a direction
(WAIT moves by (0, 0), staying in place). -/
def Coord.move (c : Coord) (d : Dir) : Coord :=
  ⟨c.x + d.dx, c.y + d.dy⟩

theorem Coord.move_wait (c : Coord) : c.move Dir.wait = c := by
  cases c
  simp [Coord.move, Dir.dx, Dir.dy]

/-- A goal cell with its color, as read by `mapf_problem.py` from the grid
(the grid class itself is absent from the source tree). -/
structure Goal where
  x : ℤ
  y : ℤ
  color : ℕ
deriving DecidableEq, Repr

/-- Modelled from the spec: an agent (`src/util/agent.py` is absent):
coordinate, color, stable identifier, and the waiting cost banked while
sitting on a matching goal.  The waiting cost starts at 0 and is only ever
incremented by one or reset, so it is a natural number. -/
structure Agent where
  coord : Coord
  color : ℕ
  identifier : ℕ
  waiting_cost : ℕ
deriving DecidableEq, Repr

/-- Modelled from the spec: a joint state is the ordered list of agents
(`src/util/state.py` is absent). -/
structure State where
  agents : List Agent
deriving DecidableEq, Repr

/-- Modelled from the spec: a search node holds the state, the accumulated
cost `g`, the heuristic value and the partial-expansion offset `delta_f`
(initially 0); the parent back-reference is used only for path
reconstruction and is omitted (`src/util/node.py` is absent). -/
structure Node where
  state : State
  cost : ℤ
  heuristic : ℤ
  delta_f : ℤ
deriving DecidableEq, Repr

/-- Embeds the fields of `MAPFProblem` and the parts of `Grid` that
`mapf_problem.py` reads (the grid class is absent from the source tree):
the goal list, the per-color heuristic field `grid.heuristic[color][y][x]`
(modelled as a total integer function — the code reads it only at cells it
recorded as finite), the traversability test `grid.traversable_coords`, and
the precomputed per-color OSF tables `self.osf[color][y][x]`. -/
structure MAPFProblem where
  goals : List Goal
  H : ℕ → ℤ → ℤ → ℤ
  trav : ℤ → ℤ → Bool
  osf : ℕ → ℤ → ℤ → List (List Dir × ℤ)

/-- Embeds `MAPFProblem.on_goal`: whether the agent stands on a goal of its
own color (the Python loop over `self.grid.goals`). -/
def MAPFProblem.on_goal (p : MAPFProblem) (agent : Agent) : Bool :=
  p.goals.any (fun goal =>
    goal.x == agent.coord.x && goal.y == agent.coord.y && goal.color == agent.color)

theorem on_goal_iff (p : MAPFProblem) (agent : Agent) :
    p.on_goal agent = true ↔
      ∃ goal ∈ p.goals, goal.x = agent.coord.x ∧ goal.y = agent.coord.y ∧
        goal.color = agent.color := by
  simp [MAPFProblem.on_goal, List.any_eq_true, and_assoc]

/-- Embeds `MAPFProblem.heuristic`: the sum of the per-color heuristic over
the agents of a state. -/
def MAPFProblem.heuristic (p : MAPFProblem) (state : State) : ℤ :=
  (state.agents.map (fun agent => p.H agent.color agent.coord.y agent.coord.x)).sum

/-- Embeds the loop body of `MAPFProblem.get_child` for one agent: the new
agent and the charge added to the node cost.  On a matching-color goal a
non-WAIT move charges the banked `waiting_cost + 1` and resets the bank,
while a WAIT banks one more unit and charges nothing; off a goal every move
charges one. -/
def get_child_step (p : MAPFProblem) (agent : Agent) (d : Dir) : Agent × ℤ :=
  if p.on_goal agent then
    if d ≠ Dir.wait then
      (⟨agent.coord.move d, agent.color, agent.identifier, 0⟩,
        (agent.waiting_cost : ℤ) + 1)
    else
      (⟨agent.coord.move d, agent.color, agent.identifier, agent.waiting_cost + 1⟩, 0)
  else
    (⟨agent.coord.move d, agent.color, agent.identifier, 0⟩, 1)

/-- Embeds `MAPFProblem.get_child`: applies a joint operator to the parent,
rebuilding every agent and accumulating the per-agent charges onto the
parent cost (`zip` models the Python indexed loop; the Python `assert`
requires one direction per agent).  The child node carries the recomputed
heuristic and a fresh `delta_f = 0`. -/
def MAPFProblem.get_child (p : MAPFProblem) (parent : Node) (operator : List Dir) :
    Node :=
  let pairs := parent.state.agents.zip operator
  let agents := pairs.map (fun ad => (get_child_step p ad.1 ad.2).1)
  let costs := parent.cost + (pairs.map (fun ad => (get_child_step p ad.1 ad.2).2)).sum
  let child_state : State := ⟨agents⟩
  ⟨child_state, costs, p.heuristic child_state, 0⟩

/-- C2: for every parent node and joint operator with one direction per
agent, `get_child` charges per agent as follows: on a matching-color goal a
WAIT leaves the node cost `g` unchanged and the child agent banks
`waiting_cost + 1`; on such a goal a non-WAIT move adds the parent agent's
`waiting_cost + 1` to `g` and resets the child's bank to 0; off a
matching-color goal the move adds exactly 1 to `g` and the bank is 0. -/
theorem get_child_cost_semantics (p : MAPFProblem) (parent : Node)
    (operator : List Dir) (hlen : operator.length = parent.state.agents.length) :
    (p.get_child parent operator).state.agents =
      (parent.state.agents.zip operator).map (fun ad =>
        ⟨ad.1.coord.move ad.2, ad.1.color, ad.1.identifier,
          if p.on_goal ad.1 ∧ ad.2 = Dir.wait then ad.1.waiting_cost + 1 else 0⟩) ∧
    (p.get_child parent operator).cost = parent.cost +
      ((parent.state.agents.zip operator).map (fun ad =>
        if p.on_goal ad.1 then
          (if ad.2 = Dir.wait then 0 else (ad.1.waiting_cost : ℤ) + 1)
        else 1)).sum := by
  constructor
  · show ((parent.state.agents.zip operator).map
        (fun ad => (get_child_step p ad.1 ad.2).1)) = _
    refine List.map_congr_left ?_
    intro ad _
    by_cases hg : p.on_goal ad.1 <;> by_cases hw : ad.2 = Dir.wait <;>
      simp [get_child_step, hg, hw]
  · show parent.cost + ((parent.state.agents.zip operator).map
        (fun ad => (get_child_step p ad.1 ad.2).2)).sum = _
    congr 1
    refine congrArg List.sum (List.map_congr_left ?_)
    intro ad _
    by_cases hg : p.on_goal ad.1 <;> by_cases hw : ad.2 = Dir.wait <;>
      simp [get_child_step, hg, hw]

/-- The per-agent charge and bank of `get_child`, evaluated on a concrete
two-agent node in which one agent waits on its goal and one moves. -/
theorem get_child_cost_semantics_witness :
    (([Dir.wait, Dir.east] : List Dir).length =
      (Node.mk ⟨[⟨⟨0, 0⟩, 0, 0, 2⟩, ⟨⟨3, 3⟩, 0, 1, 0⟩]⟩ 5 0 0).state.agents.length) ∧
    (((MAPFProblem.mk [⟨0, 0, 0⟩] (fun _ _ _ => 0) (fun _ _ => true)
        (fun _ _ _ => [])).get_child
        (Node.mk ⟨[⟨⟨0, 0⟩, 0, 0, 2⟩, ⟨⟨3, 3⟩, 0, 1, 0⟩]⟩ 5 0 0)
        [Dir.wait, Dir.east]).state.agents =
      (((Node.mk ⟨[⟨⟨0, 0⟩, 0, 0, 2⟩, ⟨⟨3, 3⟩, 0, 1, 0⟩]⟩ 5 0 0).state.agents.zip
          ([Dir.wait, Dir.east] : List Dir)).map (fun ad =>
        ⟨ad.1.coord.move ad.2, ad.1.color, ad.1.identifier,
          if (MAPFProblem.mk [⟨0, 0, 0⟩] (fun _ _ _ => 0) (fun _ _ => true)
              (fun _ _ _ => [])).on_goal ad.1 ∧ ad.2 = Dir.wait then
            ad.1.waiting_cost + 1 else 0⟩)) ∧
    ((MAPFProblem.mk [⟨0, 0, 0⟩] (fun _ _ _ => 0) (fun _ _ => true)
        (fun _ _ _ => [])).get_child
        (Node.mk ⟨[⟨⟨0, 0⟩, 0, 0, 2⟩, ⟨⟨3, 3⟩, 0, 1, 0⟩]⟩ 5 0 0)
        [Dir.wait, Dir.east]).cost =
      (Node.mk ⟨[⟨⟨0, 0⟩, 0, 0, 2⟩, ⟨⟨3, 3⟩, 0, 1, 0⟩]⟩ 5 0 0).cost +
      ((((Node.mk ⟨[⟨⟨0, 0⟩, 0, 0, 2⟩, ⟨⟨3, 3⟩, 0, 1, 0⟩]⟩ 5 0 0).state.agents.zip
          ([Dir.wait, Dir.east] : List Dir)).map (fun ad =>
        if (MAPFProblem.mk [⟨0, 0, 0⟩] (fun _ _ _ => 0) (fun _ _ => true)
            (fun _ _ _ => [])).on_goal ad.1 then
          (if ad.2 = Dir.wait then 0 else (ad.1.waiting_cost : ℤ) + 1)
        else 1)).sum)) :=
  ⟨by decide,
    get_child_cost_semantics
      (MAPFProblem.mk [⟨0, 0, 0⟩] (fun _ _ _ => 0) (fun _ _ => true)
        (fun _ _ _ => []))
      (Node.mk ⟨[⟨⟨0, 0⟩, 0, 0, 2⟩, ⟨⟨3, 3⟩, 0, 1, 0⟩]⟩ 5 0 0)
      [Dir.wait, Dir.east] (by decide)⟩

/-- C5: for every child produced by `get_child`, `f(child) = g + h` is at
least `f(parent)`, provided the per-color heuristic field is non-negative,
is zero exactly on matching-color goals, changes by at most one between
cells connected by a unit move, and the parent's stored heuristic is the
heuristic of its state. -/
theorem get_child_f_monotone (p : MAPFProblem) (parent : Node) (operator : List Dir)
    (hlen : operator.length = parent.state.agents.length)
    (hnonneg : ∀ (c : ℕ) (yy xx : ℤ), 0 ≤ p.H c yy xx)
    (hzero : ∀ (c : ℕ) (co : Coord),
      (∃ goal ∈ p.goals, goal.x = co.x ∧ goal.y = co.y ∧ goal.color = c) ↔
        p.H c co.y co.x = 0)
    (hlip : ∀ (c : ℕ) (co : Coord) (d : Dir),
      |p.H c (co.move d).y (co.move d).x - p.H c co.y co.x| ≤ 1)
    (hh : parent.heuristic = p.heuristic parent.state) :
    parent.cost + parent.heuristic ≤
      (p.get_child parent operator).cost + (p.get_child parent operator).heuristic := by
  have hchild : (p.get_child parent operator).cost +
      (p.get_child parent operator).heuristic =
      parent.cost + ((parent.state.agents.zip operator).map (fun ad =>
        (get_child_step p ad.1 ad.2).2 +
          p.H (get_child_step p ad.1 ad.2).1.color
            (get_child_step p ad.1 ad.2).1.coord.y
            (get_child_step p ad.1 ad.2).1.coord.x)).sum := by
    show parent.cost + _ + (p.heuristic ⟨_⟩) = _
    rw [MAPFProblem.heuristic]
    rw [List.map_map, List.sum_map_add]
    ring_nf
    rfl
  have hparent : parent.heuristic = ((parent.state.agents.zip operator).map (fun ad =>
      p.H ad.1.color ad.1.coord.y ad.1.coord.x)).sum := by
    rw [hh, MAPFProblem.heuristic]
    have hfst : (parent.state.agents.zip operator).map Prod.fst =
        parent.state.agents :=
      List.map_fst_zip _ _ (by omega)
    conv_lhs => rw [← hfst]
    rw [List.map_map]
    rfl
  rw [hchild, hparent]
  have hmono : ∀ ad ∈ parent.state.agents.zip operator,
      p.H ad.1.color ad.1.coord.y ad.1.coord.x ≤
        (get_child_step p ad.1 ad.2).2 +
          p.H (get_child_step p ad.1 ad.2).1.color
            (get_child_step p ad.1 ad.2).1.coord.y
            (get_child_step p ad.1 ad.2).1.coord.x := by
    intro ad _
    obtain ⟨a, d⟩ := ad
    by_cases hg : p.on_goal a
    · have hH0 : p.H a.color a.coord.y a.coord.x = 0 := by
        rcases (on_goal_iff p a).mp hg with ⟨goal, hmem, hx, hy, hc⟩
        exact (hzero a.color a.coord).mp ⟨goal, hmem, hx, hy, hc⟩
      by_cases hw : d = Dir.wait
      · subst hw
        simp only [get_child_step, hg, if_true]
        rw [if_neg (by simp)]
        simp [Coord.move_wait, hH0]
      · simp only [get_child_step, hg, if_true, if_pos hw]
        rw [hH0]
        have h1 := hnonneg a.color (a.coord.move d).y (a.coord.move d).x
        have h2 : (0 : ℤ) ≤ (a.waiting_cost : ℤ) := by positivity
        omega
    · have hstep : get_child_step p a d =
          (⟨a.coord.move d, a.color, a.identifier, 0⟩, 1) := by
        unfold get_child_step
        rw [if_neg hg]
      rw [hstep]
      dsimp only
      have h3 := hlip a.color a.coord d
      have h4 : p.H a.color (a.coord.move d).y (a.coord.move d).x -
          p.H a.color a.coord.y a.coord.x ≥ -1 := by
        have := abs_le.mp h3
        omega
      omega
  have := List.sum_le_sum hmono
  omega

/-- Concrete problem for evaluating `get_child_f_monotone`: no goals and a
constant heuristic field of value one. -/
def c5_problem : MAPFProblem :=
  MAPFProblem.mk [] (fun _ _ _ => 1) (fun _ _ => true) (fun _ _ _ => [])

/-- Concrete one-agent parent node for evaluating `get_child_f_monotone`. -/
def c5_parent : Node :=
  Node.mk ⟨[⟨⟨0, 0⟩, 0, 0, 0⟩]⟩ 0 1 0

/-- The non-decreasing `f` property of `get_child`, evaluated on a concrete
node under a concrete admissible heuristic field. -/
theorem get_child_f_monotone_witness :
    (([Dir.east] : List Dir).length = c5_parent.state.agents.length ∧
      (∀ (c : ℕ) (yy xx : ℤ), 0 ≤ c5_problem.H c yy xx) ∧
      (∀ (c : ℕ) (co : Coord),
        (∃ goal ∈ c5_problem.goals,
          goal.x = co.x ∧ goal.y = co.y ∧ goal.color = c) ↔
          c5_problem.H c co.y co.x = 0) ∧
      (∀ (c : ℕ) (co : Coord) (d : Dir),
        |c5_problem.H c (co.move d).y (co.move d).x - c5_problem.H c co.y co.x| ≤ 1) ∧
      c5_parent.heuristic = c5_problem.heuristic c5_parent.state) ∧
    c5_parent.cost + c5_parent.heuristic ≤
      (c5_problem.get_child c5_parent [Dir.east]).cost +
        (c5_problem.get_child c5_parent [Dir.east]).heuristic :=
  ⟨⟨by decide,
    fun _ _ _ => by norm_num [c5_problem],
    fun c co => by simp [c5_problem],
    fun c co d => by simp [c5_problem],
    by decide⟩,
    get_child_f_monotone c5_problem c5_parent [Dir.east] (by decide)
      (fun _ _ _ => by norm_num [c5_problem])
      (fun c co => by simp [c5_problem])
      (fun c co d => by simp [c5_problem])
      (by decide)⟩

/-!  ### OSF tables (`collapse_osf_table` and `generate_osf_table`) -/

/-- Embeds the accumulation loop of `collapse_osf_table`: `acc` is
`last_directions`, `last_df` the delta value being grouped, and the rest of
the sorted table is consumed row by row. -/
def collapse_go : List Dir → ℤ → List (Dir × ℤ) → List (List Dir × ℤ)
  | acc, last_df, [] => [(acc, last_df)]
  | acc, last_df, (d, df) :: rest =>
    if df = last_df then collapse_go (acc ++ [d]) last_df rest
    else (acc, last_df) :: collapse_go [d] df rest

/-- Embeds `collapse_osf_table` from `mapf_problem.py`: collapses directions
with the same delta value into a single row of the sorted table (the Python
empty-table case prints a warning and returns an empty table). -/
def collapse_osf_table : List (Dir × ℤ) → List (List Dir × ℤ)
  | [] => []
  | (d, df) :: rest => collapse_go [d] df rest

/-- Embeds `MAPFProblem.generate_osf_table`: for each of N, E, S, W whose
neighbour cell is traversable, one row `(direction, 1 + H[neighbour] − h)`;
then the WAIT row with delta one; the table is sorted ascending on the
delta value (a stable sort, as `list.sort` is) and collapsed. -/
def MAPFProblem.generate_osf_table (p : MAPFProblem) (x y : ℤ) (heuristic : ℤ)
    (color : ℕ) : List (List Dir × ℤ) :=
  let expanded_table :=
    ([Dir.north, Dir.east, Dir.south, Dir.west].filterMap (fun d =>
      if p.trav (x + d.dx) (y + d.dy) then
        some (d, 1 + p.H color (y + d.dy) (x + d.dx) - heuristic)
      else none)) ++ [(Dir.wait, 1)]
  collapse_osf_table
    (List.insertionSort (fun r s => r.2 ≤ s.2) expanded_table)

/-- The individual `(direction, delta)` entries represented by a collapsed
OSF table, each bundle row unfolded. -/
def osf_entries (table : List (List Dir × ℤ)) : List (Dir × ℤ) :=
  table.flatMap (fun row => row.1.map (fun d => (d, row.2)))

theorem osf_entries_collapse_go :
    ∀ (l : List (Dir × ℤ)) (acc : List Dir) (v : ℤ),
      osf_entries (collapse_go acc v l) = acc.map (fun d => (d, v)) ++ l
  | [], acc, v => by simp [collapse_go, osf_entries]
  | (d, df) :: rest, acc, v => by
      by_cases h : df = v
      · subst h
        rw [collapse_go, if_pos rfl, osf_entries_collapse_go rest (acc ++ [d]) df]
        simp
      · rw [collapse_go, if_neg h]
        show osf_entries ((acc, v) :: collapse_go [d] df rest) = _
        rw [osf_entries, List.flatMap_cons, ← osf_entries,
          osf_entries_collapse_go rest [d] df]
        simp

theorem osf_entries_collapse (l : List (Dir × ℤ)) :
    osf_entries (collapse_osf_table l) = l := by
  rcases l with _ | ⟨⟨d, df⟩, rest⟩
  · rfl
  · rw [collapse_osf_table, osf_entries_collapse_go rest [d] df]
    simp

theorem collapse_go_snd_mem :
    ∀ (l : List (Dir × ℤ)) (acc : List Dir) (v : ℤ),
      ∀ row ∈ collapse_go acc v l, row.2 = v ∨ ∃ q ∈ l, row.2 = q.2
  | [], acc, v => by simp [collapse_go]
  | (d, df) :: rest, acc, v => by
      intro row hrow
      by_cases h : df = v
      · subst h
        rw [collapse_go, if_pos rfl] at hrow
        rcases collapse_go_snd_mem rest (acc ++ [d]) df row hrow with h1 | ⟨q, hq, h2⟩
        · exact Or.inl h1
        · exact Or.inr ⟨q, List.mem_cons_of_mem _ hq, h2⟩
      · rw [collapse_go, if_neg h] at hrow
        rcases List.mem_cons.mp hrow with rfl | hrow'
        · exact Or.inl rfl
        · rcases collapse_go_snd_mem rest [d] df row hrow' with h1 | ⟨q, hq, h2⟩
          · exact Or.inr ⟨(d, df), List.mem_cons_self _ _, h1⟩
          · exact Or.inr ⟨q, List.mem_cons_of_mem _ hq, h2⟩

theorem collapse_go_pairwise :
    ∀ (l : List (Dir × ℤ)) (acc : List Dir) (v : ℤ),
      List.Pairwise (fun r s => r.2 ≤ s.2) l → (∀ q ∈ l, v ≤ q.2) →
      List.Pairwise (fun r1 r2 : List Dir × ℤ => r1.2 < r2.2) (collapse_go acc v l)
  | [], acc, v, _, _ => by simp [collapse_go]
  | (d, df) :: rest, acc, v, hsort, hge => by
      have hrest := (List.pairwise_cons.mp hsort).2
      have hdf := (List.pairwise_cons.mp hsort).1
      by_cases h : df = v
      · subst h
        rw [collapse_go, if_pos rfl]
        exact collapse_go_pairwise rest (acc ++ [d]) df hrest hdf
      · have hvd : v < df := lt_of_le_of_ne (hge (d, df) (List.mem_cons_self _ _))
          (fun hvdf => h hvdf.symm)
        rw [collapse_go, if_neg h]
        refine List.pairwise_cons.mpr ⟨?_, collapse_go_pairwise rest [d] df hrest hdf⟩
        intro row hrow
        rcases collapse_go_snd_mem rest [d] df row hrow with h1 | ⟨q, hq, h2⟩
        · simp only [h1]
          exact hvd
        · have := hdf q hq
          simp only [h2]
          omega

theorem collapse_go_bundle_ne_nil :
    ∀ (l : List (Dir × ℤ)) (acc : List Dir) (v : ℤ), acc ≠ [] →
      ∀ row ∈ collapse_go acc v l, row.1 ≠ []
  | [], acc, v, hacc => by simp [collapse_go, hacc]
  | (d, df) :: rest, acc, v, hacc => by
      intro row hrow
      by_cases h : df = v
      · subst h
        rw [collapse_go, if_pos rfl] at hrow
        exact collapse_go_bundle_ne_nil rest (acc ++ [d]) df (by simp) row hrow
      · rw [collapse_go, if_neg h] at hrow
        rcases List.mem_cons.mp hrow with rfl | hrow'
        · exact hacc
        · exact collapse_go_bundle_ne_nil rest [d] df (by simp) row hrow'

theorem collapse_pairwise (l : List (Dir × ℤ))
    (hsort : List.Pairwise (fun r s => r.2 ≤ s.2) l) :
    List.Pairwise (fun r1 r2 : List Dir × ℤ => r1.2 < r2.2)
      (collapse_osf_table l) := by
  rcases l with _ | ⟨⟨d, df⟩, rest⟩
  · simp [collapse_osf_table]
  · exact collapse_go_pairwise rest [d] df (List.pairwise_cons.mp hsort).2
      (List.pairwise_cons.mp hsort).1

theorem collapse_bundle_ne_nil (l : List (Dir × ℤ)) :
    ∀ row ∈ collapse_osf_table l, row.1 ≠ [] := by
  rcases l with _ | ⟨⟨d, df⟩, rest⟩
  · simp [collapse_osf_table]
  · exact collapse_go_bundle_ne_nil rest [d] df (by simp)

instance : IsTotal (Dir × ℤ) (fun r s => r.2 ≤ s.2) :=
  ⟨fun a b => le_total a.2 b.2⟩

instance : IsTrans (Dir × ℤ) (fun r s => r.2 ≤ s.2) :=
  ⟨fun _ _ _ hab hbc => le_trans hab hbc⟩

/-- C3: for every color and cell (its heuristic value `p.H color y x`
standing for the recorded finite value), the generated OSF table consists
exactly of one entry per traversable 4-neighbour reached by direction `d`
with delta `1 + H[color][y+dy][x+dx] − H[color][y][x]` plus a WAIT entry
with delta one (as a permutation of its unfolded bundle rows); its rows are
in strictly increasing delta order — so they are sorted ascending and all
directions sharing a delta value are collapsed into the single row carrying
that value — and no bundle row is empty. -/
theorem generate_osf_table_correct (p : MAPFProblem) (x y : ℤ) (color : ℕ) :
    (osf_entries (p.generate_osf_table x y (p.H color y x) color)).Perm
      (([Dir.north, Dir.east, Dir.south, Dir.west].filterMap (fun d =>
        if p.trav (x + d.dx) (y + d.dy) then
          some (d, 1 + p.H color (y + d.dy) (x + d.dx) - p.H color y x)
        else none)) ++ [(Dir.wait, 1)]) ∧
    List.Pairwise (fun r1 r2 : List Dir × ℤ => r1.2 < r2.2)
      (p.generate_osf_table x y (p.H color y x) color) ∧
    ∀ row ∈ p.generate_osf_table x y (p.H color y x) color, row.1 ≠ [] := by
  unfold MAPFProblem.generate_osf_table
  refine ⟨?_, ?_, ?_⟩
  · rw [osf_entries_collapse]
    exact List.perm_insertionSort _ _
  · exact collapse_pairwise _ (List.sorted_insertionSort _ _)
  · exact collapse_bundle_ne_nil _

/-!  ### Child generation and conflict filtering (`expand`) -/

/-- Embeds `MAPFProblem.get_children`: runs the OperatorFinder with the OSF
table of each agent's cell, expands every accepted bundle tuple into joint
direction operators by Cartesian product (`itertools.product` enumerates in
the same order as `selections`), and builds one child per operator. -/
def MAPFProblem.get_children (p : MAPFProblem) (parent : Node) (v : ℤ) :
    List Node × WithTop ℤ :=
  let finder := OperatorFinder.run v (parent.state.agents.map (fun agent =>
    p.osf agent.color agent.coord.y agent.coord.x))
  let expanded_operators := finder.operators.flatMap (fun op => selections op)
  (expanded_operators.map (fun op => p.get_child parent op),
    finder.next_target_value)

/-- Embeds the inner loop of the edge-conflict check in `MAPFProblem.expand`:
whether some later pair (child agent `j`, parent agent `j`) swaps with the
current agent, which sits at `ci` in the child and `pi` in the parent. -/
def edge_check (ci pi : Coord) : List (Agent × Agent) → Bool
  | [] => false
  | (cj, pj) :: rest => (ci == pj.coord && cj.coord == pi) || edge_check ci pi rest

/-- Embeds the conflict-scanning loop of `MAPFProblem.expand` over the zipped
(child agent, parent agent) pairs, with the child coordinates seen so far;
returns the `(vertex_conflict, edge_conflict)` flags, stopping at the first
conflict as the Python `break`s do. -/
def conflict_loop (coords : List Coord) : List (Agent × Agent) → Bool × Bool
  | [] => (false, false)
  | (c, pa) :: rest =>
    if coords.contains c.coord then (true, false)
    else if edge_check c.coord pa.coord rest then (false, true)
    else conflict_loop (coords ++ [c.coord]) rest

/-- Embeds `MAPFProblem.expand`: generates the children at the node's
current delta offset and keeps exactly those whose conflict scan raises
neither flag, in generation order. -/
def MAPFProblem.expand (p : MAPFProblem) (node : Node) : List Node × WithTop ℤ :=
  let res := p.get_children node node.delta_f
  (res.1.filter (fun child =>
    let flags := conflict_loop [] (child.state.agents.zip node.state.agents)
    !flags.1 && !flags.2), res.2)

theorem find_loop_ops_length {α : Type} (T : ℤ) (rest : List (List (α × ℤ)))
    (recur : List α → ℤ → OFSt α → OFSt α)
    (hrec : ∀ (pO : List α) (pS : ℤ) (st : OFSt α),
      ∀ o ∈ (recur pO pS st).operators,
        o ∈ st.operators ∨ o.length = pO.length + rest.length) :
    ∀ (rows : List (α × ℤ)) (pO : List α) (pS : ℤ) (st : OFSt α),
      ∀ o ∈ (find_loop T rest recur rows pO pS st).operators,
        o ∈ st.operators ∨ o.length = pO.length + 1 + rest.length := by
  intro rows
  induction rows with
  | nil =>
      intro pO pS st o ho
      exact Or.inl ho
  | cons hd rows ih =>
      obtain ⟨a, df⟩ := hd
      intro pO pS st o ho
      by_cases hA : T < pS + df + min_tail rest
      · have hstep : find_loop T rest recur ((a, df) :: rows) pO pS st =
            { st with
              next_target_value := min st.next_target_value
                ((pS + df + min_tail rest : ℤ) : WithTop ℤ) } := by
          simp only [find_loop]
          rw [if_pos hA]
        rw [hstep] at ho
        exact Or.inl ho
      · by_cases hE : rest.isEmpty
        · have hstep : find_loop T rest recur ((a, df) :: rows) pO pS st =
              find_loop T rest recur rows pO pS
                (if pS + df = T then
                  { st with operators := st.operators ++ [pO ++ [a]] } else st) := by
            simp only [find_loop]
            rw [if_neg hA, if_pos hE]
          rw [hstep] at ho
          have hrlen : rest.length = 0 := by
            rw [List.isEmpty_iff] at hE
            simp [hE]
          rcases ih pO pS _ o ho with hmem | hlen
          · by_cases hT : pS + df = T
            · rw [if_pos hT] at hmem
              rcases List.mem_append.mp hmem with h1 | h1
              · exact Or.inl h1
              · refine Or.inr ?_
                simp at h1
                simp [h1, hrlen]
            · rw [if_neg hT] at hmem
              exact Or.inl hmem
          · exact Or.inr hlen
        · by_cases hC : pS + df + max_tail rest < T
          · have hstep : find_loop T rest recur ((a, df) :: rows) pO pS st =
                find_loop T rest recur rows pO pS st := by
              simp only [find_loop]
              rw [if_neg hA, if_neg hE, if_pos hC]
            rw [hstep] at ho
            exact ih pO pS st o ho
          · have hstep : find_loop T rest recur ((a, df) :: rows) pO pS st =
                find_loop T rest recur rows pO pS
                  (recur (pO ++ [a]) (pS + df) st) := by
              simp only [find_loop]
              rw [if_neg hA, if_neg hE, if_neg hC]
            rw [hstep] at ho
            rcases ih pO pS _ o ho with hmem | hlen
            · rcases hrec (pO ++ [a]) (pS + df) st o hmem with h1 | h1
              · exact Or.inl h1
              · refine Or.inr ?_
                simp at h1
                omega
            · exact Or.inr hlen

theorem find_operators_ops_length {α : Type} (T : ℤ) :
    ∀ (lists : List (List (α × ℤ))) (pO : List α) (pS : ℤ) (st : OFSt α),
      ∀ o ∈ (find_operators T lists pO pS st).operators,
        o ∈ st.operators ∨ o.length = pO.length + lists.length
  | [], pO, pS, st => fun o ho => Or.inl ho
  | rows :: rest, pO, pS, st => by
      intro o ho
      have := find_loop_ops_length T rest (find_operators T rest)
        (fun pO' pS' st' o' ho' => find_operators_ops_length T rest pO' pS' st' o' ho')
        rows pO pS st o ho
      rcases this with h | h
      · exact Or.inl h
      · refine Or.inr ?_
        simp [h]
        omega

theorem get_children_length (p : MAPFProblem) (parent : Node) (v : ℤ) :
    ∀ child ∈ (p.get_children parent v).1,
      child.state.agents.length = parent.state.agents.length := by
  intro child hchild
  unfold MAPFProblem.get_children at hchild
  simp only [List.mem_map, List.mem_flatMap] at hchild
  rcases hchild with ⟨op, ⟨bundle, hbundle, hop⟩, rfl⟩
  have hblen : bundle.length = parent.state.agents.length := by
    rcases find_operators_ops_length v _ [] 0 ⟨[], ⊤⟩ bundle hbundle with h | h
    · simp at h
    · simpa using h
  have hoplen : op.length = parent.state.agents.length := by
    rw [length_of_mem_selections hop, hblen]
  show ((parent.state.agents.zip op).map _).length = _
  simp [hoplen]

theorem edge_check_eq_true {ci pi : Coord} :
    ∀ {zs : List (Agent × Agent)},
      edge_check ci pi zs = true ↔ ∃ z ∈ zs, ci = z.2.coord ∧ z.1.coord = pi
  | [] => by simp [edge_check]
  | (cj, pj) :: rest => by
      rw [edge_check]
      simp only [Bool.or_eq_true, Bool.and_eq_true, beq_iff_eq]
      rw [edge_check_eq_true]
      constructor
      · rintro (⟨h1, h2⟩ | ⟨z, hz, h1, h2⟩)
        · exact ⟨(cj, pj), List.mem_cons_self _ _, h1, h2⟩
        · exact ⟨z, List.mem_cons_of_mem _ hz, h1, h2⟩
      · rintro ⟨z, hz, h1, h2⟩
        rcases List.mem_cons.mp hz with rfl | hz'
        · exact Or.inl ⟨h1, h2⟩
        · exact Or.inr ⟨z, hz', h1, h2⟩

theorem conflict_loop_eq_ff :
    ∀ (zs : List (Agent × Agent)) (coords : List Coord), coords.Nodup →
      (conflict_loop coords zs = (false, false) ↔
        ((coords ++ zs.map (fun z => z.1.coord)).Nodup ∧
          List.Pairwise (fun z w : Agent × Agent =>
            ¬(z.1.coord = w.2.coord ∧ w.1.coord = z.2.coord)) zs))
  | [], coords, hnd => by simp [conflict_loop, hnd]
  | (c, pa) :: rest, coords, hnd => by
      rw [conflict_loop]
      by_cases h1 : coords.contains c.coord
      · rw [if_pos h1]
        have hcmem : c.coord ∈ coords := by
          simpa using h1
        constructor
        · intro h
          simp at h
        · rintro ⟨hnodup, _⟩
          exfalso
          rcases List.nodup_append.mp hnodup with ⟨_, _, hdisj⟩
          exact hdisj hcmem (by simp)
      · rw [if_neg h1]
        have hcnot : c.coord ∉ coords := by
          simpa using h1
        by_cases h2 : edge_check c.coord pa.coord rest
        · rw [if_pos h2]
          constructor
          · intro h
            simp at h
          · rintro ⟨_, hpw⟩
            exfalso
            rcases edge_check_eq_true.mp h2 with ⟨z, hz, hz1, hz2⟩
            exact (List.pairwise_cons.mp hpw).1 z hz ⟨hz1, hz2⟩
        · rw [if_neg h2]
          have hnd' : (coords ++ [c.coord]).Nodup := by
            simp [List.nodup_append, hnd, hcnot]
          rw [conflict_loop_eq_ff rest (coords ++ [c.coord]) hnd']
          have hlist : coords ++ [c.coord] ++ rest.map (fun z => z.1.coord) =
              coords ++ ((c, pa) :: rest).map (fun z => z.1.coord) := by
            simp
          rw [hlist]
          constructor
          · rintro ⟨hnodup, hpw⟩
            refine ⟨hnodup, List.pairwise_cons.mpr ⟨?_, hpw⟩⟩
            intro w hw hcontra
            exact absurd (edge_check_eq_true.mpr ⟨w, hw, hcontra.1, hcontra.2⟩)
              (by simp [h2])
          · rintro ⟨hnodup, hpw⟩
            exact ⟨hnodup, (List.pairwise_cons.mp hpw).2⟩

/-- C4: `expand` returns exactly the generated children in which no two
agents occupy the same coordinate in the child state and no two agents
exchange positions between the parent state and the child state: a child is
kept iff it was generated and is free of both vertex and edge (swap)
conflicts. -/
theorem expand_filters_conflicts (p : MAPFProblem) (node : Node) (child : Node) :
    child ∈ (p.expand node).1 ↔
      (child ∈ (p.get_children node node.delta_f).1 ∧
        (child.state.agents.map (fun agent => agent.coord)).Nodup ∧
        List.Pairwise (fun z w : Agent × Agent =>
          ¬(z.1.coord = w.2.coord ∧ w.1.coord = z.2.coord))
          (child.state.agents.zip node.state.agents)) := by
  unfold MAPFProblem.expand
  simp only [List.mem_filter, Bool.and_eq_true, Bool.not_eq_true']
  constructor
  · rintro ⟨hmem, hflag1, hflag2⟩
    have hlen := get_children_length p node node.delta_f child hmem
    have hff : conflict_loop []
        (child.state.agents.zip node.state.agents) = (false, false) := by
      rw [Prod.ext_iff]
      exact ⟨hflag1, hflag2⟩
    have heq := (conflict_loop_eq_ff
      (child.state.agents.zip node.state.agents) [] List.nodup_nil).mp hff
    have hmap : (child.state.agents.zip node.state.agents).map
        (fun z => z.1.coord) = child.state.agents.map (fun agent => agent.coord) := by
      have hfst : (child.state.agents.zip node.state.agents).map Prod.fst =
          child.state.agents := List.map_fst_zip _ _ (by omega)
      conv_rhs => rw [← hfst]
      rw [List.map_map]
      rfl
    rw [hmap] at heq
    simp only [List.nil_append] at heq
    exact ⟨hmem, heq.1, heq.2⟩
  · rintro ⟨hmem, hnodup, hpw⟩
    have hlen := get_children_length p node node.delta_f child hmem
    have hmap : (child.state.agents.zip node.state.agents).map
        (fun z => z.1.coord) = child.state.agents.map (fun agent => agent.coord) := by
      have hfst : (child.state.agents.zip node.state.agents).map Prod.fst =
          child.state.agents := List.map_fst_zip _ _ (by omega)
      conv_rhs => rw [← hfst]
      rw [List.map_map]
      rfl
    have hff := (conflict_loop_eq_ff
      (child.state.agents.zip node.state.agents) [] List.nodup_nil).mpr
      (by
        rw [hmap]
        rw [List.nil_append]
        exact ⟨hnodup, hpw⟩)
    refine ⟨hmem, ?_, ?_⟩
    · rw [hff]
    · rw [hff]

/-!  ### Independence Detection (`src/solver/epeastar/independence_detection.py`)

`EPEAStar`, `Path`, `PathSet` and `CAT` are external to the included
sources; they are modelled from the specification and the EPEA* solver is
abstracted as an oracle with the solve surface the spec describes. -/

/-- Modelled from the spec: a path is a time-indexed coordinate sequence
stamped with the owning agent's identifier (`src/util/path.py` is absent
from the source tree; the source's name `Path` is taken by the library). -/
structure AgentPath where
  identifier : ℕ
  coords : List Coord
deriving DecidableEq, Repr

/-- Modelled from the spec: a collision avoidance table aggregates committed
paths; only which paths it aggregates matters to the claims, so it is the
list of those paths (`src/util/cat.py` is absent). -/
abbrev CAT : Type := List AgentPath

/-- Modelled from the spec: the Path Set owns the committed paths of the
currently solved groups (`src/util/path_set.py` is absent). -/
structure PathSet where
  committed : List AgentPath
deriving DecidableEq, Repr

/-- Modelled from the spec: committing paths with `PathSet.update(paths)` —
"Updates are additive on `update(paths)`" (section 4.7). -/
def PathSet.update (ps : PathSet) (paths : List AgentPath) : PathSet :=
  ⟨ps.committed ++ paths⟩

/-- Modelled from the spec: the CAT a Path Set exposes over its committed
paths. -/
def PathSet.cat (ps : PathSet) : CAT :=
  ps.committed

/-- Modelled from the spec: the bounded-cost EPEA* solve surface
`solve(max_cost) → (paths, cost) | infeasible`
(`src/solver/epeastar/epeastar.py` is absent).  Arguments: the problem, the
agents of the group, the collision avoidance tables, and the cost bound. -/
abbrev EPOracle : Type :=
  MAPFProblem → List Agent → List CAT → WithTop ℤ → Option (List AgentPath × ℤ)

/-- Subtraction of a finite cost from a possibly infinite bound, as the
Python `self.max_value - total_cost` behaves with `float('inf')`. -/
def subI (m : WithTop ℤ) (c : ℤ) : WithTop ℤ :=
  m.map (fun v => v - c)

/-- Embeds the inner loop of `find_conflict`: the first later path
conflicting with `q`, as an identifier pair. -/
def find_conflict_inner (conflicts : AgentPath → AgentPath → Bool) (q : AgentPath) :
    List AgentPath → Option (ℕ × ℕ)
  | [] => none
  | r :: rest =>
    if conflicts q r then some (q.identifier, r.identifier)
    else find_conflict_inner conflicts q rest

/-- Embeds `find_conflict` from `independence_detection.py`: the identifiers
of the first conflicting pair of paths in index order; the pairwise test
`Path.conflicts` (absent from the source tree) is a parameter. -/
def find_conflict (conflicts : AgentPath → AgentPath → Bool) : List AgentPath → Option (ℕ × ℕ)
  | [] => none
  | q :: rest =>
    match find_conflict_inner conflicts q rest with
    | some r => some r
    | none => find_conflict conflicts rest

/-- Embeds the inner lookup loop of `IDSolver.merge_groups` over one group's
agents: `some true` when the first conflicting agent is found (the Python
loop sets `group_a` and `break`s, never reaching the second check for this
group), `some false` when the second is found first, `none` when the group
contains neither. -/
def scan_group (agent_a_id agent_b_id : ℕ) : List Agent → Option Bool
  | [] => none
  | agent :: rest =>
    if agent.identifier = agent_a_id then some true
    else if agent.identifier = agent_b_id then some false
    else scan_group agent_a_id agent_b_id rest

/-- Embeds the group lookup of `IDSolver.merge_groups`: scans every group
(the outer Python loop has no break), recording the group and index where
the first agent was found and the group where the second was found. -/
def find_groups_loop (agent_a_id agent_b_id : ℕ) :
    List (List Agent × ℤ) → ℕ → Option ((List Agent × ℤ) × ℕ) →
      Option (List Agent × ℤ) →
      Option ((List Agent × ℤ) × ℕ) × Option (List Agent × ℤ)
  | [], _, ga, gb => (ga, gb)
  | g :: rest, i, ga, gb =>
    match scan_group agent_a_id agent_b_id g.1 with
    | some true => find_groups_loop agent_a_id agent_b_id rest (i + 1) (some (g, i)) gb
    | some false => find_groups_loop agent_a_id agent_b_id rest (i + 1) ga (some g)
    | none => find_groups_loop agent_a_id agent_b_id rest (i + 1) ga gb

/-- The mutable fields of an `IDSolver` instance that `solve` and
`merge_groups` read and write. -/
structure IDState where
  cost : ℤ
  paths : List AgentPath
  path_set : PathSet
  max_value : WithTop ℤ
deriving DecidableEq, Repr

/-- Embeds the final loop of `merge_groups`: writes each re-solved path at
the index equal to its agent's identifier
(`self.paths[agent.identifier] = path`). -/
def write_paths : List AgentPath → List (Agent × AgentPath) → List AgentPath
  | paths, [] => paths
  | paths, (agent, path) :: rest =>
    write_paths (paths.set agent.identifier path) rest

/-- The observable outcome of `merge_groups`: a failing `assert` from the
lookup, the `None` return when the merged solve fails under the bound, or
the updated solver state with the new group list. -/
inductive MergeResult where
  | assertFail
  | fail
  | ok (st : IDState) (groups : List (List Agent × ℤ))
deriving DecidableEq, Repr

/-- Embeds `IDSolver.merge_groups`: looks both conflicting agents up in the
group list (a failing `assert` when either group variable stays unset),
subtracts both groups' costs from the solver cost, re-solves the
concatenated group with the given CATs under the remaining budget
`max_value − cost`, and on success commits the new paths with
`path_set.update`, writes the merged group at the first group's index,
removes the second group, adds the new cost, and writes each new path at
its agent's identifier.  The second component records the agents, CATs and
bound passed to the EPEA* solver, when that call is reached. -/
def merge_groups (ep : EPOracle) (problem : MAPFProblem) (st : IDState)
    (groups : List (List Agent × ℤ)) (agent_a_id agent_b_id : ℕ)
    (cats : List CAT) :
    MergeResult × Option (List Agent × List CAT × WithTop ℤ) :=
  match find_groups_loop agent_a_id agent_b_id groups 0 none none with
  | (none, _) => (.assertFail, none)
  | (some _, none) => (.assertFail, none)
  | (some (group_a, group_a_id), some group_b) =>
    let cost1 := st.cost - (group_a.2 + group_b.2)
    let new_agents := group_a.1 ++ group_b.1
    let bound := subI st.max_value cost1
    match ep problem new_agents cats bound with
    | none => (.fail, some (new_agents, cats, bound))
    | some (group_paths, cost) =>
      (.ok
        { st with
          cost := cost1 + cost,
          path_set := st.path_set.update group_paths,
          paths := write_paths st.paths (new_agents.zip group_paths) }
        ((groups.set group_a_id (new_agents, cost)).erase group_b),
        some (new_agents, cats, bound))

theorem scan_group_eq_none_iff {aId bId : ℕ} :
    ∀ {agents : List Agent}, scan_group aId bId agents = none ↔
      aId ∉ agents.map (fun agent => agent.identifier) ∧
      bId ∉ agents.map (fun agent => agent.identifier)
  | [] => by simp [scan_group]
  | agent :: rest => by
      rw [scan_group]
      by_cases h1 : agent.identifier = aId
      · rw [if_pos h1]
        simp [h1.symm]
      · rw [if_neg h1]
        by_cases h2 : agent.identifier = bId
        · rw [if_pos h2]
          simp [h2.symm]
        · rw [if_neg h2]
          rw [scan_group_eq_none_iff]
          simp only [List.map_cons, List.mem_cons]
          constructor
          · rintro ⟨ha, hb⟩
            exact ⟨by rintro (rfl | h) <;> [exact h1 rfl; exact ha h],
              by rintro (rfl | h) <;> [exact h2 rfl; exact hb h]⟩
          · rintro ⟨ha, hb⟩
            exact ⟨fun h => ha (Or.inr h), fun h => hb (Or.inr h)⟩

theorem find_groups_loop_skip (aId bId : ℕ) :
    ∀ (gs : List (List Agent × ℤ)) (i : ℕ)
      (ga : Option ((List Agent × ℤ) × ℕ)) (gb : Option (List Agent × ℤ)),
      (∀ g' ∈ gs, scan_group aId bId g'.1 = none) →
      find_groups_loop aId bId gs i ga gb = (ga, gb)
  | [], i, ga, gb, _ => rfl
  | g :: rest, i, ga, gb, h => by
      rw [find_groups_loop, h g (List.mem_cons_self _ _)]
      exact find_groups_loop_skip aId bId rest (i + 1) ga gb
        (fun g' hg' => h g' (List.mem_cons_of_mem _ hg'))

theorem find_groups_loop_same_group (aId bId : ℕ) (g : List Agent × ℤ)
    (ha : aId ∈ g.1.map (fun agent => agent.identifier))
    (hb : bId ∈ g.1.map (fun agent => agent.identifier)) :
    ∀ (pre post : List (List Agent × ℤ)) (i : ℕ),
      (∀ g' ∈ pre ++ post, scan_group aId bId g'.1 = none) →
      (find_groups_loop aId bId (pre ++ g :: post) i none none).1 = none ∨
      (find_groups_loop aId bId (pre ++ g :: post) i none none).2 = none
  | [], post, i, h => by
      simp only [List.nil_append]
      rw [find_groups_loop]
      rcases hscan : scan_group aId bId g.1 with _ | t
      · exfalso
        exact (scan_group_eq_none_iff.mp hscan).1 ha
      · cases t
        · rw [find_groups_loop_skip aId bId post (i + 1) none (some g)
            (fun g' hg' => h g' (by simpa using hg'))]
          exact Or.inl rfl
        · rw [find_groups_loop_skip aId bId post (i + 1) (some (g, i)) none
            (fun g' hg' => h g' (by simpa using hg'))]
          exact Or.inr rfl
  | p0 :: pre, post, i, h => by
      simp only [List.cons_append]
      rw [find_groups_loop, h p0 (List.mem_cons_self _ _)]
      exact find_groups_loop_same_group aId bId g ha hb pre post (i + 1)
        (fun g' hg' => h g' (List.mem_cons_of_mem _ hg'))

/-- C7: when the two conflicting agent identifiers belong to the same group
in the group list — occurring in no other group, as the partition of agents
into groups guarantees — `merge_groups` aborts with a failing assertion (the
single group's scan stops at whichever of the two agents it meets first, so
the other group variable is never set, and one of `assert group_a is not
None`, `assert group_b is not None` fails) instead of returning a merged
group list or `None`. -/
theorem merge_groups_intra_group_assert (ep : EPOracle) (problem : MAPFProblem)
    (st : IDState) (pre post : List (List Agent × ℤ)) (g : List Agent × ℤ)
    (agent_a_id agent_b_id : ℕ) (cats : List CAT)
    (ha : agent_a_id ∈ g.1.map (fun agent => agent.identifier))
    (hb : agent_b_id ∈ g.1.map (fun agent => agent.identifier))
    (hothers : ∀ g' ∈ pre ++ post,
      agent_a_id ∉ g'.1.map (fun agent => agent.identifier) ∧
      agent_b_id ∉ g'.1.map (fun agent => agent.identifier)) :
    (merge_groups ep problem st (pre ++ g :: post) agent_a_id agent_b_id cats).1 =
      .assertFail := by
  have hnone : ∀ g' ∈ pre ++ post, scan_group agent_a_id agent_b_id g'.1 = none :=
    fun g' hg' => scan_group_eq_none_iff.mpr (hothers g' hg')
  have hor := find_groups_loop_same_group agent_a_id agent_b_id g ha hb pre post 0 hnone
  unfold merge_groups
  rcases hfg : find_groups_loop agent_a_id agent_b_id (pre ++ g :: post) 0 none none
    with ⟨ga, gb⟩
  rw [hfg] at hor
  rcases ga with _ | ga
  · rfl
  · rcases gb with _ | gb
    · obtain ⟨ga1, ga2⟩ := ga
      rfl
    · rcases hor with h | h <;> simp at h

/-- The intra-group assertion failure evaluated on a concrete group list in
which both conflicting agents share the single group. -/
theorem merge_groups_intra_group_assert_witness :
    ((0 : ℕ) ∈ ([⟨⟨0, 0⟩, 0, 0, 0⟩, ⟨⟨1, 0⟩, 0, 1, 0⟩] : List Agent).map
        (fun agent => agent.identifier) ∧
      (1 : ℕ) ∈ ([⟨⟨0, 0⟩, 0, 0, 0⟩, ⟨⟨1, 0⟩, 0, 1, 0⟩] : List Agent).map
        (fun agent => agent.identifier) ∧
      (∀ g' ∈ ([] ++ [] : List (List Agent × ℤ)),
        (0 : ℕ) ∉ g'.1.map (fun agent => agent.identifier) ∧
        (1 : ℕ) ∉ g'.1.map (fun agent => agent.identifier))) ∧
    (merge_groups (fun _ _ _ _ => none)
      (MAPFProblem.mk [] (fun _ _ _ => 0) (fun _ _ => true) (fun _ _ _ => []))
      ⟨0, [], ⟨[]⟩, ⊤⟩
      ([] ++ ([⟨⟨0, 0⟩, 0, 0, 0⟩, ⟨⟨1, 0⟩, 0, 1, 0⟩], (3 : ℤ)) :: [])
      0 1 []).1 = .assertFail :=
  ⟨⟨by decide, by decide, by decide⟩,
    merge_groups_intra_group_assert (fun _ _ _ _ => none)
      (MAPFProblem.mk [] (fun _ _ _ => 0) (fun _ _ => true) (fun _ _ _ => []))
      ⟨0, [], ⟨[]⟩, ⊤⟩ [] [] ([⟨⟨0, 0⟩, 0, 0, 0⟩, ⟨⟨1, 0⟩, 0, 1, 0⟩], (3 : ℤ))
      0 1 [] (by decide) (by decide) (by decide)⟩

/-- C6 (amended): in every successful `merge_groups` call, the costs of
both conflicting groups are subtracted from the solver's total cost before
re-solving — the bound passed to the merged EPEA* solve is `max_value`
minus the reduced total — but the groups' paths are NOT removed from the
Path Set: the Path Set is untouched before the re-solve (the CATs passed
are exactly the caller's, still carrying the old paths) and on success
`update` only adds the new group paths.  On success the new group paths are
committed, the merged group replaces group `G_a` at its index, group `G_b`
is removed from the group list, and the new group's cost is added to the
total cost. -/
theorem merge_groups_success_bookkeeping (ep : EPOracle) (problem : MAPFProblem)
    (st : IDState) (groups : List (List Agent × ℤ)) (agent_a_id agent_b_id : ℕ)
    (cats : List CAT) (group_a : List Agent × ℤ) (group_a_id : ℕ)
    (group_b : List Agent × ℤ) (group_paths : List AgentPath) (cost : ℤ)
    (hfg : find_groups_loop agent_a_id agent_b_id groups 0 none none =
      (some (group_a, group_a_id), some group_b))
    (hep : ep problem (group_a.1 ++ group_b.1) cats
      (subI st.max_value (st.cost - (group_a.2 + group_b.2))) =
        some (group_paths, cost)) :
    merge_groups ep problem st groups agent_a_id agent_b_id cats =
      (.ok
        { st with
          cost := st.cost - (group_a.2 + group_b.2) + cost,
          path_set := st.path_set.update group_paths,
          paths := write_paths st.paths ((group_a.1 ++ group_b.1).zip group_paths) }
        ((groups.set group_a_id (group_a.1 ++ group_b.1, cost)).erase group_b),
        some (group_a.1 ++ group_b.1, cats,
          subI st.max_value (st.cost - (group_a.2 + group_b.2)))) := by
  unfold merge_groups
  rw [hfg]
  simp only [hep]

/-- Counterexample to C6 as stated: a concrete successful `merge_groups`
call on two singleton groups whose paths `⟨0, [(0,0)]⟩` and `⟨1, [(5,5)]⟩`
sit in the Path Set.  The re-solve is invoked with the caller's CATs still
containing both paths (nothing was removed from the Path Set before
re-solving), and even the returned state's Path Set still contains both old
paths — `update` only appended the new group paths — contradicting "their
paths are removed from the Path Set". -/
theorem merge_groups_paths_not_removed :
    merge_groups
      (fun _ _ _ _ => some ([⟨0, [⟨1, 1⟩]⟩, ⟨1, [⟨2, 2⟩]⟩], 7))
      (MAPFProblem.mk [] (fun _ _ _ => 0) (fun _ _ => true) (fun _ _ _ => []))
      ⟨10, [⟨0, [⟨0, 0⟩]⟩, ⟨1, [⟨5, 5⟩]⟩], ⟨[⟨0, [⟨0, 0⟩]⟩, ⟨1, [⟨5, 5⟩]⟩]⟩, ⊤⟩
      [([⟨⟨0, 0⟩, 0, 0, 0⟩], 4), ([⟨⟨5, 5⟩, 0, 1, 0⟩], 6)]
      0 1 [[⟨0, [⟨0, 0⟩]⟩, ⟨1, [⟨5, 5⟩]⟩]] =
      (.ok
        ⟨7, [⟨0, [⟨1, 1⟩]⟩, ⟨1, [⟨2, 2⟩]⟩],
          ⟨[⟨0, [⟨0, 0⟩]⟩, ⟨1, [⟨5, 5⟩]⟩, ⟨0, [⟨1, 1⟩]⟩, ⟨1, [⟨2, 2⟩]⟩]⟩, ⊤⟩
        [([⟨⟨0, 0⟩, 0, 0, 0⟩, ⟨⟨5, 5⟩, 0, 1, 0⟩], 7)],
        some ([⟨⟨0, 0⟩, 0, 0, 0⟩, ⟨⟨5, 5⟩, 0, 1, 0⟩],
          [[⟨0, [⟨0, 0⟩]⟩, ⟨1, [⟨5, 5⟩]⟩]], ⊤)) ∧
    (⟨0, [⟨0, 0⟩]⟩ : AgentPath) ∈
      ([[⟨0, [⟨0, 0⟩]⟩, ⟨1, [⟨5, 5⟩]⟩]] : List CAT).flatten ∧
    (⟨0, [⟨0, 0⟩]⟩ : AgentPath) ∈
      ([⟨0, [⟨0, 0⟩]⟩, ⟨1, [⟨5, 5⟩]⟩, ⟨0, [⟨1, 1⟩]⟩, ⟨1, [⟨2, 2⟩]⟩] : List AgentPath) ∧
    (⟨1, [⟨5, 5⟩]⟩ : AgentPath) ∈
      ([⟨0, [⟨0, 0⟩]⟩, ⟨1, [⟨5, 5⟩]⟩, ⟨0, [⟨1, 1⟩]⟩, ⟨1, [⟨2, 2⟩]⟩] : List AgentPath) :=
  ⟨by decide, by decide, by decide, by decide⟩

/-- The amended merge bookkeeping evaluated on a concrete successful merge
of two singleton groups. -/
theorem merge_groups_success_bookkeeping_witness :
    (find_groups_loop 0 1
      [([⟨⟨0, 0⟩, 0, 0, 0⟩], (4 : ℤ)), ([⟨⟨5, 5⟩, 0, 1, 0⟩], 6)] 0 none none =
        (some (([⟨⟨0, 0⟩, 0, 0, 0⟩], (4 : ℤ)), 0), some ([⟨⟨5, 5⟩, 0, 1, 0⟩], 6)) ∧
      (fun (_ : MAPFProblem) (_ : List Agent) (_ : List CAT) (_ : WithTop ℤ) =>
        some (([⟨0, [⟨1, 1⟩]⟩, ⟨1, [⟨2, 2⟩]⟩] : List AgentPath), (7 : ℤ)))
        (MAPFProblem.mk [] (fun _ _ _ => 0) (fun _ _ => true) (fun _ _ _ => []))
        (([⟨⟨0, 0⟩, 0, 0, 0⟩] : List Agent) ++ [⟨⟨5, 5⟩, 0, 1, 0⟩]) []
        (subI (⊤ : WithTop ℤ) ((10 : ℤ) - (4 + 6))) =
          some ([⟨0, [⟨1, 1⟩]⟩, ⟨1, [⟨2, 2⟩]⟩], 7)) ∧
    merge_groups
      (fun _ _ _ _ => some ([⟨0, [⟨1, 1⟩]⟩, ⟨1, [⟨2, 2⟩]⟩], 7))
      (MAPFProblem.mk [] (fun _ _ _ => 0) (fun _ _ => true) (fun _ _ _ => []))
      ⟨10, [⟨0, [⟨0, 0⟩]⟩, ⟨1, [⟨5, 5⟩]⟩], ⟨[⟨0, [⟨0, 0⟩]⟩, ⟨1, [⟨5, 5⟩]⟩]⟩, ⊤⟩
      [([⟨⟨0, 0⟩, 0, 0, 0⟩], 4), ([⟨⟨5, 5⟩, 0, 1, 0⟩], 6)] 0 1 [] =
      (.ok
        { cost := (10 : ℤ) - (4 + 6) + 7,
          paths := write_paths [⟨0, [⟨0, 0⟩]⟩, ⟨1, [⟨5, 5⟩]⟩]
            (List.zip
              (([⟨⟨0, 0⟩, 0, 0, 0⟩] ++ [⟨⟨5, 5⟩, 0, 1, 0⟩] : List Agent))
              ([⟨0, [⟨1, 1⟩]⟩, ⟨1, [⟨2, 2⟩]⟩] : List AgentPath)),
          path_set := PathSet.update ⟨[⟨0, [⟨0, 0⟩]⟩, ⟨1, [⟨5, 5⟩]⟩]⟩
            [⟨0, [⟨1, 1⟩]⟩, ⟨1, [⟨2, 2⟩]⟩],
          max_value := ⊤ }
        (([([⟨⟨0, 0⟩, 0, 0, 0⟩], 4), ([⟨⟨5, 5⟩, 0, 1, 0⟩], 6)].set 0
          (([⟨⟨0, 0⟩, 0, 0, 0⟩] : List Agent) ++ [⟨⟨5, 5⟩, 0, 1, 0⟩], 7)).erase
          ([⟨⟨5, 5⟩, 0, 1, 0⟩], 6)),
        some ((([⟨⟨0, 0⟩, 0, 0, 0⟩] : List Agent) ++ [⟨⟨5, 5⟩, 0, 1, 0⟩]), [],
          subI (⊤ : WithTop ℤ) ((10 : ℤ) - (4 + 6)))) :=
  ⟨⟨by decide, rfl⟩,
    merge_groups_success_bookkeeping
      (fun _ _ _ _ => some ([⟨0, [⟨1, 1⟩]⟩, ⟨1, [⟨2, 2⟩]⟩], 7))
      (MAPFProblem.mk [] (fun _ _ _ => 0) (fun _ _ => true) (fun _ _ _ => []))
      ⟨10, [⟨0, [⟨0, 0⟩]⟩, ⟨1, [⟨5, 5⟩]⟩], ⟨[⟨0, [⟨0, 0⟩]⟩, ⟨1, [⟨5, 5⟩]⟩]⟩, ⊤⟩
      [([⟨⟨0, 0⟩, 0, 0, 0⟩], 4), ([⟨⟨5, 5⟩, 0, 1, 0⟩], 6)] 0 1 []
      ([⟨⟨0, 0⟩, 0, 0, 0⟩], 4) 0 ([⟨⟨5, 5⟩, 0, 1, 0⟩], 6)
      [⟨0, [⟨1, 1⟩]⟩, ⟨1, [⟨2, 2⟩]⟩] 7 (by decide) rfl⟩

/-- Embeds the initialisation loop of `IDSolver.solve`: solves every agent
alone under the remaining budget `max_value − total_cost` (where
`total_cost` carries the solved agents' costs plus the unsolved agents'
start-cell heuristic values), commits each path to the Path Set, appends the
agent's path and its singleton group.  The final component records, for
specification purposes only, the bound passed to each EPEA* invocation
together with the cost it returned. -/
def id_init (ep : EPOracle) (problem : MAPFProblem) (outer : List CAT)
    (maxv : WithTop ℤ) :
    List Agent → ℤ → List AgentPath → PathSet → List (List Agent × ℤ) →
      List (WithTop ℤ × ℤ) →
      Option (ℤ × List AgentPath × PathSet × List (List Agent × ℤ)) ×
        List (WithTop ℤ × ℤ)
  | [], total, paths, ps, groups, tr => (some (total, paths, ps, groups), tr)
  | agent :: rest, total, paths, ps, groups, tr =>
    let total1 := total - problem.H agent.color agent.coord.y agent.coord.x
    let bound := subI maxv total1
    match ep problem [agent] (outer ++ [ps.cat]) bound with
    | none => (none, tr ++ [(bound, 0)])
    | some (agent_paths, cost) =>
      id_init ep problem outer maxv rest (total1 + cost)
        (paths ++ [agent_paths.headD ⟨0, []⟩])
        (ps.update agent_paths) (groups ++ [([agent], cost)])
        (tr ++ [(bound, cost)])

/-- The observable outcome of `IDSolver.solve`. -/
inductive SolveResult where
  | assertFail
  | fail
  | ok (paths : List AgentPath) (cost : ℤ)
deriving DecidableEq, Repr

/-- Embeds the conflict-resolution loop of `IDSolver.solve` (`while conflict
is not None`), with explicit fuel: every successful merge removes one group,
so the Python loop runs at most one iteration per group; exhausted fuel is
reported as failure. -/
def id_conflict_loop (ep : EPOracle) (conflicts : AgentPath → AgentPath → Bool)
    (problem : MAPFProblem) (outer : List CAT) :
    ℕ → IDState → List (List Agent × ℤ) → SolveResult
  | 0, _, _ => .fail
  | fuel + 1, st, groups =>
    match find_conflict conflicts st.paths with
    | none => .ok st.paths st.cost
    | some (a, b) =>
      match (merge_groups ep problem st groups a b
          (outer ++ [st.path_set.cat])).1 with
      | .assertFail => .assertFail
      | .fail => .fail
      | .ok st' groups' =>
          id_conflict_loop ep conflicts problem outer fuel st' groups'

/-- Embeds `IDSolver.solve` together with the state set up by
`IDSolver.__init__`: a fresh Path Set, the per-agent initialisation under
the tightening budget, then the conflict loop.  Also returns the recorded
per-invocation `(bound, cost)` trace of the initialisation. -/
def id_solve (ep : EPOracle) (conflicts : AgentPath → AgentPath → Bool)
    (problem : MAPFProblem) (outer : List CAT) (agents : List Agent)
    (maxv : WithTop ℤ) (fuel : ℕ) : SolveResult × List (WithTop ℤ × ℤ) :=
  let total0 := (agents.map (fun agent =>
    problem.H agent.color agent.coord.y agent.coord.x)).sum
  match id_init ep problem outer maxv agents total0 [] ⟨[]⟩ [] [] with
  | (none, tr) => (.fail, tr)
  | (some (total, paths, ps, groups), tr) =>
    (id_conflict_loop ep conflicts problem outer fuel
      ⟨total, paths, ps, maxv⟩ groups, tr)

theorem write_paths_length :
    ∀ (l : List (Agent × AgentPath)) (paths : List AgentPath),
      (write_paths paths l).length = paths.length
  | [], paths => rfl
  | (agent, path) :: rest, paths => by
      rw [write_paths, write_paths_length rest]
      simp

theorem write_paths_ids :
    ∀ (l : List (Agent × AgentPath)) (paths : List AgentPath),
      (∀ pr ∈ l, pr.2.identifier = pr.1.identifier) →
      (∀ k (hk : k < paths.length), (paths.get ⟨k, hk⟩).identifier = k) →
      ∀ k (hk : k < (write_paths paths l).length),
        ((write_paths paths l).get ⟨k, hk⟩).identifier = k
  | [], paths, _, hp, k, hk => hp k hk
  | (agent, path) :: rest, paths, hl, hp, k, hk => by
      have hid : path.identifier = agent.identifier :=
        hl (agent, path) (List.mem_cons_self _ _)
      simp only [write_paths] at hk ⊢
      refine write_paths_ids rest (paths.set agent.identifier path)
        (fun pr hpr => hl pr (List.mem_cons_of_mem _ hpr)) ?_ k hk
      intro k' hk'
      have hk2 : k' < paths.length := by simpa using hk'
      rw [List.get_eq_getElem]
      rw [List.getElem_set]
      by_cases he : agent.identifier = k'
      · rw [if_pos he, hid, he]
      · rw [if_neg he]
        have := hp k' hk2
        rw [List.get_eq_getElem] at this
        exact this

theorem zip_ids (ags : List Agent) (paths : List AgentPath)
    (hlen : paths.length = ags.length)
    (hids : ∀ i (hi : i < ags.length) (hi2 : i < paths.length),
      (paths.get ⟨i, hi2⟩).identifier = (ags.get ⟨i, hi⟩).identifier) :
    ∀ pr ∈ ags.zip paths, pr.2.identifier = pr.1.identifier := by
  intro pr hpr
  rcases List.mem_iff_get.mp hpr with ⟨⟨i, hi⟩, hget⟩
  have hi1 : i < ags.length := by
    rw [List.length_zip] at hi
    omega
  have hi2 : i < paths.length := by
    rw [List.length_zip] at hi
    omega
  have : pr = (ags[i], paths[i]) := by
    rw [← hget, List.get_eq_getElem, List.getElem_zip]
  rw [this]
  have := hids i hi1 hi2
  rw [List.get_eq_getElem, List.get_eq_getElem] at this
  exact this

theorem merge_groups_ok_paths (ep : EPOracle) (problem : MAPFProblem)
    (st : IDState) (groups : List (List Agent × ℤ)) (a b : ℕ) (cats : List CAT)
    (st' : IDState) (groups' : List (List Agent × ℤ))
    (h : (merge_groups ep problem st groups a b cats).1 = .ok st' groups') :
    ∃ (new_agents : List Agent) (group_paths : List AgentPath) (cost : ℤ)
      (bound : WithTop ℤ),
      ep problem new_agents cats bound = some (group_paths, cost) ∧
      st'.paths = write_paths st.paths (new_agents.zip group_paths) := by
  unfold merge_groups at h
  rcases hfg : find_groups_loop a b groups 0 none none with ⟨ga, gb⟩
  rw [hfg] at h
  rcases ga with _ | ⟨ga, ia⟩
  · simp at h
  · rcases gb with _ | gb
    · simp at h
    · rcases hep : ep problem (ga.1 ++ gb.1) cats
        (subI st.max_value (st.cost - (ga.2 + gb.2))) with _ | ⟨gp, c⟩
      · simp only [hep] at h
        simp at h
      · simp only [hep] at h
        simp only [MergeResult.ok.injEq] at h
        refine ⟨ga.1 ++ gb.1, gp, c,
          subI st.max_value (st.cost - (ga.2 + gb.2)), hep, ?_⟩
        rw [← h.1]

theorem id_conflict_loop_ids (ep : EPOracle)
    (conflicts : AgentPath → AgentPath → Bool) (problem : MAPFProblem)
    (outer : List CAT)
    (hep : ∀ (ags : List Agent) (cats : List CAT) (b : WithTop ℤ)
        (res : List AgentPath × ℤ), ep problem ags cats b = some res →
      res.1.length = ags.length ∧
      ∀ i (hi : i < ags.length) (hi2 : i < res.1.length),
        (res.1.get ⟨i, hi2⟩).identifier = (ags.get ⟨i, hi⟩).identifier) :
    ∀ (fuel : ℕ) (st : IDState) (groups : List (List Agent × ℤ))
      (paths : List AgentPath) (cost : ℤ),
      id_conflict_loop ep conflicts problem outer fuel st groups = .ok paths cost →
      (∀ k (hk : k < st.paths.length), (st.paths.get ⟨k, hk⟩).identifier = k) →
      paths.length = st.paths.length ∧
      ∀ k (hk : k < paths.length), (paths.get ⟨k, hk⟩).identifier = k
  | 0, st, groups, paths, cost, h => by simp [id_conflict_loop] at h
  | fuel + 1, st, groups, paths, cost, h => by
      intro hinv
      rw [id_conflict_loop] at h
      split at h
      · simp only [SolveResult.ok.injEq] at h
        rw [← h.1]
        exact ⟨rfl, hinv⟩
      · rename_i a b hfc
        split at h
        · simp at h
        · simp at h
        · rename_i st' groups' hmg
          rcases merge_groups_ok_paths ep problem st groups a b _ st' groups' hmg
            with ⟨new_agents, group_paths, c, bound, hcall, hpaths⟩
          rcases hep new_agents _ bound (group_paths, c) hcall with ⟨hlen1, hids1⟩
          have hinv' : ∀ k (hk : k < st'.paths.length),
              (st'.paths.get ⟨k, hk⟩).identifier = k := by
            have hw := write_paths_ids (new_agents.zip group_paths) st.paths
              (zip_ids new_agents group_paths hlen1 hids1) hinv
            intro k hk
            have hk2 : k < (write_paths st.paths (new_agents.zip group_paths)).length := by
              rw [← hpaths]
              exact hk
            have hw2 := hw k hk2
            rw [List.get_eq_getElem] at hw2
            rw [List.get_eq_getElem]
            simp only [hpaths]
            exact hw2
          have hres := id_conflict_loop_ids ep conflicts problem outer hep
            fuel st' groups' paths cost h hinv'
          refine ⟨?_, hres.2⟩
          rw [hres.1, hpaths, write_paths_length]

theorem id_init_ids (ep : EPOracle) (problem : MAPFProblem) (outer : List CAT)
    (maxv : WithTop ℤ)
    (hep : ∀ (ags : List Agent) (cats : List CAT) (b : WithTop ℤ)
        (res : List AgentPath × ℤ), ep problem ags cats b = some res →
      res.1.length = ags.length ∧
      ∀ i (hi : i < ags.length) (hi2 : i < res.1.length),
        (res.1.get ⟨i, hi2⟩).identifier = (ags.get ⟨i, hi⟩).identifier) :
    ∀ (agents0 : List Agent) (total : ℤ) (paths : List AgentPath)
      (ps : PathSet) (groups : List (List Agent × ℤ)) (tr : List (WithTop ℤ × ℤ))
      (total' : ℤ) (paths' : List AgentPath) (ps' : PathSet)
      (groups' : List (List Agent × ℤ)) (tr' : List (WithTop ℤ × ℤ)),
      id_init ep problem outer maxv agents0 total paths ps groups tr =
        (some (total', paths', ps', groups'), tr') →
      (∀ i (hi : i < agents0.length),
        (agents0.get ⟨i, hi⟩).identifier = paths.length + i) →
      (∀ k (hk : k < paths.length), (paths.get ⟨k, hk⟩).identifier = k) →
      paths'.length = paths.length + agents0.length ∧
      ∀ k (hk : k < paths'.length), (paths'.get ⟨k, hk⟩).identifier = k
  | [], total, paths, ps, groups, tr, total', paths', ps', groups', tr', h => by
      intro _ hinv
      simp only [id_init, Prod.mk.injEq, Option.some.injEq] at h
      obtain ⟨⟨_, hp, _, _⟩, _⟩ := h
      rw [← hp]
      exact ⟨by simp, hinv⟩
  | agent :: rest, total, paths, ps, groups, tr, total', paths', ps', groups', tr', h => by
      intro hids hinv
      rw [id_init] at h
      split at h
      · simp at h
      · rename_i agent_paths cost hcall
        rcases hep [agent] _ _ (agent_paths, cost) hcall with ⟨hlen1, hids1⟩
        have hlen1' : agent_paths.length = 1 := by simpa using hlen1
        have hhead : (agent_paths.headD ⟨0, []⟩).identifier = paths.length := by
          rcases agent_paths with _ | ⟨p0, prest⟩
          · simp at hlen1'
          · have h0 := hids1 0 (by simp) (by simp)
            simp only [List.get] at h0
            have hag : agent.identifier = paths.length + 0 := hids 0 (by simp)
            simp only [List.headD]
            rw [h0, hag]
            omega
        have hids' : ∀ i (hi : i < rest.length),
            (rest.get ⟨i, hi⟩).identifier =
              (paths ++ [agent_paths.headD ⟨0, []⟩]).length + i := by
          intro i hi
          have := hids (i + 1) (by simpa using Nat.succ_lt_succ hi)
          simp only [List.get] at this ⊢
          rw [this]
          simp
          omega
        have hinv' : ∀ k (hk : k < (paths ++ [agent_paths.headD ⟨0, []⟩]).length),
            ((paths ++ [agent_paths.headD ⟨0, []⟩]).get ⟨k, hk⟩).identifier = k := by
          intro k hk
          simp only [List.length_append, List.length_cons, List.length_nil] at hk
          by_cases hke : k < paths.length
          · rw [List.get_eq_getElem, List.getElem_append_left hke]
            have := hinv k hke
            rw [List.get_eq_getElem] at this
            exact this
          · have hkeq : k = paths.length := by omega
            rw [List.get_eq_getElem, List.getElem_concat_length _ _ _ hkeq]
            rw [hhead, hkeq]
        have hres := id_init_ids ep problem outer maxv hep rest
          (total - problem.H agent.color agent.coord.y agent.coord.x + cost)
          (paths ++ [agent_paths.headD ⟨0, []⟩]) (ps.update agent_paths)
          (groups ++ [([agent], cost)])
          (tr ++ [(subI maxv
            (total - problem.H agent.color agent.coord.y agent.coord.x), cost)])
          total' paths' ps' groups' tr' h hids' hinv'
        refine ⟨?_, hres.2⟩
        rw [hres.1]
        simp
        omega

/-- C9: when the agents carry identifiers `0 .. n−1` in list order (as the
facade assigns them by enumeration) and the EPEA* solver returns one path
per given agent stamped with that agent's identifier, then every successful
`IDSolver.solve` returns a path list of length `n` whose entry at every
index `k` carries agent identifier `k` — the indexing the initialisation
establishes and `merge_groups` preserves by writing each re-solved path at
the index equal to its agent's identifier. -/
theorem id_solve_paths_indexed (ep : EPOracle)
    (conflicts : AgentPath → AgentPath → Bool) (problem : MAPFProblem)
    (outer : List CAT) (agents : List Agent) (maxv : WithTop ℤ) (fuel : ℕ)
    (paths : List AgentPath) (cost : ℤ) (tr : List (WithTop ℤ × ℤ))
    (hids : ∀ i (hi : i < agents.length), (agents.get ⟨i, hi⟩).identifier = i)
    (hep : ∀ (ags : List Agent) (cats : List CAT) (b : WithTop ℤ)
        (res : List AgentPath × ℤ), ep problem ags cats b = some res →
      res.1.length = ags.length ∧
      ∀ i (hi : i < ags.length) (hi2 : i < res.1.length),
        (res.1.get ⟨i, hi2⟩).identifier = (ags.get ⟨i, hi⟩).identifier)
    (hok : id_solve ep conflicts problem outer agents maxv fuel =
      (.ok paths cost, tr)) :
    paths.length = agents.length ∧
    ∀ k (hk : k < paths.length), (paths.get ⟨k, hk⟩).identifier = k := by
  unfold id_solve at hok
  dsimp only at hok
  split at hok
  · simp at hok
  · rename_i total mid_paths ps groups tr0 hinit
    simp only [Prod.mk.injEq] at hok
    have hmid := id_init_ids ep problem outer maxv hep agents _ [] ⟨[]⟩ [] []
      total mid_paths ps groups tr0 hinit
      (by simpa using hids) (by simp)
    have hloop := id_conflict_loop_ids ep conflicts problem outer hep fuel
      ⟨total, mid_paths, ps, maxv⟩ groups paths cost hok.1 hmid.2
    refine ⟨?_, hloop.2⟩
    rw [hloop.1]
    have := hmid.1
    simpa using this

/-- The path-indexing invariant evaluated on a concrete one-agent solve with
an oracle that stamps paths with the given agents' identifiers. -/
theorem id_solve_paths_indexed_witness :
    ((∀ i (hi : i < ([⟨⟨0, 0⟩, 0, 0, 0⟩] : List Agent).length),
        (([⟨⟨0, 0⟩, 0, 0, 0⟩] : List Agent).get ⟨i, hi⟩).identifier = i) ∧
      (∀ (ags : List Agent) (cats : List CAT) (b : WithTop ℤ)
          (res : List AgentPath × ℤ),
        (fun (_ : MAPFProblem) (ags : List Agent) (_ : List CAT) (_ : WithTop ℤ) =>
          some (ags.map (fun a => (⟨a.identifier, []⟩ : AgentPath)), (0 : ℤ)))
          (MAPFProblem.mk [] (fun _ _ _ => 0) (fun _ _ => true) (fun _ _ _ => []))
          ags cats b = some res →
        res.1.length = ags.length ∧
        ∀ i (hi : i < ags.length) (hi2 : i < res.1.length),
          (res.1.get ⟨i, hi2⟩).identifier = (ags.get ⟨i, hi⟩).identifier) ∧
      id_solve
        (fun _ ags _ _ => some (ags.map (fun a => (⟨a.identifier, []⟩ : AgentPath)), 0))
        (fun _ _ => false)
        (MAPFProblem.mk [] (fun _ _ _ => 0) (fun _ _ => true) (fun _ _ _ => []))
        [] [⟨⟨0, 0⟩, 0, 0, 0⟩] ⊤ 2 = (.ok [⟨0, []⟩] 0, [(⊤, 0)])) ∧
    (([⟨0, []⟩] : List AgentPath).length = ([⟨⟨0, 0⟩, 0, 0, 0⟩] : List Agent).length ∧
      ∀ k (hk : k < ([⟨0, []⟩] : List AgentPath).length),
        (([⟨0, []⟩] : List AgentPath).get ⟨k, hk⟩).identifier = k) :=
  ⟨⟨by decide,
    fun ags cats b res h => by
      have hres : res = (ags.map (fun a => (⟨a.identifier, []⟩ : AgentPath)), 0) :=
        (Option.some.inj h).symm
      subst hres
      refine ⟨by simp, ?_⟩
      intro i hi hi2
      simp [List.get_eq_getElem, List.getElem_map],
    by decide⟩,
    id_solve_paths_indexed
      (fun _ ags _ _ => some (ags.map (fun a => (⟨a.identifier, []⟩ : AgentPath)), 0))
      (fun _ _ => false)
      (MAPFProblem.mk [] (fun _ _ _ => 0) (fun _ _ => true) (fun _ _ _ => []))
      [] [⟨⟨0, 0⟩, 0, 0, 0⟩] ⊤ 2 [⟨0, []⟩] 0 [(⊤, 0)]
      (by decide)
      (fun ags cats b res h => by
        have hres : res = (ags.map (fun a => (⟨a.identifier, []⟩ : AgentPath)), 0) :=
          (Option.some.inj h).symm
        subst hres
        refine ⟨by simp, ?_⟩
        intro i hi hi2
        simp [List.get_eq_getElem, List.getElem_map])
      (by decide)⟩

theorem id_init_trace_shift (ep : EPOracle) (problem : MAPFProblem)
    (outer : List CAT) (maxv : WithTop ℤ) :
    ∀ (agents0 : List Agent) (total : ℤ) (paths : List AgentPath) (ps : PathSet)
      (groups : List (List Agent × ℤ)) (tr : List (WithTop ℤ × ℤ)),
      id_init ep problem outer maxv agents0 total paths ps groups tr =
        ((id_init ep problem outer maxv agents0 total paths ps groups []).1,
          tr ++ (id_init ep problem outer maxv agents0 total paths ps groups []).2)
  | [], total, paths, ps, groups, tr => by simp [id_init]
  | agent :: rest, total, paths, ps, groups, tr => by
      simp only [id_init]
      rcases hcall : ep problem [agent] (outer ++ [ps.cat])
          (subI maxv (total - problem.H agent.color agent.coord.y agent.coord.x))
        with _ | ⟨agent_paths, cost⟩
      · simp
      · simp only []
        rw [id_init_trace_shift ep problem outer maxv rest _ _ _ _
          (tr ++ [(subI maxv
            (total - problem.H agent.color agent.coord.y agent.coord.x), cost)])]
        simp only [List.nil_append]
        rw [id_init_trace_shift ep problem outer maxv rest _ _ _ _
          ([(subI maxv
            (total - problem.H agent.color agent.coord.y agent.coord.x), cost)])]
        simp

theorem id_init_bounds_aux (ep : EPOracle) (problem : MAPFProblem)
    (outer : List CAT) (maxv : WithTop ℤ) :
    ∀ (agents0 : List Agent) (total : ℤ) (paths : List AgentPath) (ps : PathSet)
      (groups : List (List Agent × ℤ))
      (res : Option (ℤ × List AgentPath × PathSet × List (List Agent × ℤ)))
      (tr : List (WithTop ℤ × ℤ)),
      id_init ep problem outer maxv agents0 total paths ps groups [] = (res, tr) →
      ∀ i (hi : i < tr.length),
        (tr.get ⟨i, hi⟩).1 =
          subI maxv (total -
            ((agents0.take (i + 1)).map (fun agent =>
              problem.H agent.color agent.coord.y agent.coord.x)).sum +
            ((tr.take i).map (fun e => e.2)).sum)
  | [], total, paths, ps, groups, res, tr, h => by
      simp only [id_init, Prod.mk.injEq] at h
      intro i hi
      rw [← h.2] at hi
      simp at hi
  | agent :: rest, total, paths, ps, groups, res, tr, h => by
      rcases hcall : ep problem [agent] (outer ++ [ps.cat])
          (subI maxv (total - problem.H agent.color agent.coord.y agent.coord.x))
        with _ | ⟨agent_paths, cost⟩
      · have hrun : id_init ep problem outer maxv (agent :: rest) total paths ps
            groups [] = (none, [(subI maxv
              (total - problem.H agent.color agent.coord.y agent.coord.x), 0)]) := by
          rw [id_init, hcall]
          rfl
        rw [hrun] at h
        obtain ⟨hres, htr⟩ := Prod.mk.injEq .. |>.mp h
        subst htr
        intro i hi
        have hi0 : i = 0 := by
          simpa using hi
        subst hi0
        simp [List.get]
      · rcases hinner : id_init ep problem outer maxv rest
            (total - problem.H agent.color agent.coord.y agent.coord.x + cost)
            (paths ++ [agent_paths.headD ⟨0, []⟩]) (ps.update agent_paths)
            (groups ++ [([agent], cost)]) [] with ⟨res1, tr1⟩
        have hrun : id_init ep problem outer maxv (agent :: rest) total paths ps
            groups [] = (res1, (subI maxv
              (total - problem.H agent.color agent.coord.y agent.coord.x), cost) ::
                tr1) := by
          rw [id_init, hcall]
          show id_init ep problem outer maxv rest _ _ _ _
            ([] ++ [(subI maxv
              (total - problem.H agent.color agent.coord.y agent.coord.x), cost)]) = _
          rw [List.nil_append]
          rw [id_init_trace_shift ep problem outer maxv rest _ _ _ _
            ([(subI maxv
              (total - problem.H agent.color agent.coord.y agent.coord.x), cost)])]
          rw [hinner]
          simp
        rw [hrun] at h
        obtain ⟨hres, htr⟩ := Prod.mk.injEq .. |>.mp h
        subst htr
        intro i hi
        rcases i with _ | j
        · simp [List.get]
        · simp only [List.length_cons] at hi
          have hj : j < tr1.length := by omega
          have hrec := id_init_bounds_aux ep problem outer maxv rest
            (total - problem.H agent.color agent.coord.y agent.coord.x + cost)
            (paths ++ [agent_paths.headD ⟨0, []⟩]) (ps.update agent_paths)
            (groups ++ [([agent], cost)]) res1 tr1 hinner j hj
          simp only [List.get] at hrec ⊢
          rw [hrec]
          rw [List.take_succ_cons, List.map_cons, List.sum_cons,
            List.take_succ_cons, List.map_cons, List.sum_cons]
          congr 1
          ring

theorem id_solve_trace_eq (ep : EPOracle)
    (conflicts : AgentPath → AgentPath → Bool) (problem : MAPFProblem)
    (outer : List CAT) (agents : List Agent) (maxv : WithTop ℤ) (fuel : ℕ) :
    (id_solve ep conflicts problem outer agents maxv fuel).2 =
      (id_init ep problem outer maxv agents
        ((agents.map (fun agent =>
          problem.H agent.color agent.coord.y agent.coord.x)).sum)
        [] ⟨[]⟩ [] []).2 := by
  unfold id_solve
  dsimp only
  split
  · rename_i tr heq
    rw [heq]
  · rename_i total paths ps groups tr heq
    rw [heq]

/-- C10: during `IDSolver.solve` initialisation, the cost bound passed to
the single-agent EPEA* invocation for the `i`-th agent (recorded with the
returned cost in the solve trace) equals `max_value` minus the sum of the
path costs of the already-solved agents minus the sum of the heuristic
values at the start coordinates of the not-yet-solved agents other than
agent `i`: the budget is tightened by an admissible lower bound on the
unsolved agents, not merely by the costs incurred so far. -/
theorem id_solve_init_bounds (ep : EPOracle)
    (conflicts : AgentPath → AgentPath → Bool) (problem : MAPFProblem)
    (outer : List CAT) (agents : List Agent) (maxv : WithTop ℤ) (fuel : ℕ)
    (i : ℕ)
    (hi : i < (id_solve ep conflicts problem outer agents maxv fuel).2.length) :
    (((id_solve ep conflicts problem outer agents maxv fuel).2).get ⟨i, hi⟩).1 =
      subI maxv
        ((((id_solve ep conflicts problem outer agents maxv fuel).2.take i).map
          (fun e => e.2)).sum +
        ((agents.drop (i + 1)).map (fun agent =>
          problem.H agent.color agent.coord.y agent.coord.x)).sum) := by
  have htr := id_solve_trace_eq ep conflicts problem outer agents maxv fuel
  rcases hinit : id_init ep problem outer maxv agents
      ((agents.map (fun agent =>
        problem.H agent.color agent.coord.y agent.coord.x)).sum)
      [] ⟨[]⟩ [] [] with ⟨res, tr⟩
  have htr2 : (id_solve ep conflicts problem outer agents maxv fuel).2 = tr := by
    rw [htr, hinit]
  have hi2 : i < tr.length := by
    rw [htr2] at hi
    exact hi
  have hb := id_init_bounds_aux ep problem outer maxv agents
    ((agents.map (fun agent =>
      problem.H agent.color agent.coord.y agent.coord.x)).sum)
    [] ⟨[]⟩ [] res tr hinit i hi2
  have hget : ((id_solve ep conflicts problem outer agents maxv fuel).2).get
      ⟨i, hi⟩ = tr.get ⟨i, hi2⟩ := by
    rw [List.get_eq_getElem, List.get_eq_getElem]
    simp only [htr2]
  rw [hget, hb, htr2]
  congr 1
  have hsplit : ((agents.map (fun agent =>
      problem.H agent.color agent.coord.y agent.coord.x)).sum) =
      ((agents.take (i + 1)).map (fun agent =>
        problem.H agent.color agent.coord.y agent.coord.x)).sum +
      ((agents.drop (i + 1)).map (fun agent =>
        problem.H agent.color agent.coord.y agent.coord.x)).sum := by
    conv_lhs => rw [← List.take_append_drop (i + 1) agents]
    rw [List.map_append, List.sum_append]
  rw [hsplit]
  ring

/-- The initialisation budget formula evaluated on a concrete two-agent
solve: the second invocation's bound is the cap minus the first agent's
returned cost, with no unsolved agents left to discount. -/
theorem id_solve_init_bounds_witness :
    (1 < (id_solve (fun _ _ _ _ => some ([], 5)) (fun _ _ => false)
      (MAPFProblem.mk [] (fun _ _ _ => 1) (fun _ _ => true) (fun _ _ _ => []))
      [] [⟨⟨0, 0⟩, 0, 0, 0⟩, ⟨⟨1, 0⟩, 0, 1, 0⟩] ((100 : ℤ) : WithTop ℤ)
      3).2.length) ∧
    (((id_solve (fun _ _ _ _ => some ([], 5)) (fun _ _ => false)
      (MAPFProblem.mk [] (fun _ _ _ => 1) (fun _ _ => true) (fun _ _ _ => []))
      [] [⟨⟨0, 0⟩, 0, 0, 0⟩, ⟨⟨1, 0⟩, 0, 1, 0⟩] ((100 : ℤ) : WithTop ℤ)
      3).2.get ⟨1, by decide⟩).1 =
      subI ((100 : ℤ) : WithTop ℤ)
        ((((id_solve (fun _ _ _ _ => some ([], 5)) (fun _ _ => false)
          (MAPFProblem.mk [] (fun _ _ _ => 1) (fun _ _ => true) (fun _ _ _ => []))
          [] [⟨⟨0, 0⟩, 0, 0, 0⟩, ⟨⟨1, 0⟩, 0, 1, 0⟩] ((100 : ℤ) : WithTop ℤ)
          3).2.take 1).map (fun e => e.2)).sum +
        ((([⟨⟨0, 0⟩, 0, 0, 0⟩, ⟨⟨1, 0⟩, 0, 1, 0⟩] : List Agent).drop 2).map
          (fun agent =>
            (MAPFProblem.mk [] (fun _ _ _ => 1) (fun _ _ => true)
              (fun _ _ _ => [])).H agent.color agent.coord.y agent.coord.x)).sum)) :=
  ⟨by decide,
    id_solve_init_bounds (fun _ _ _ _ => some ([], 5)) (fun _ _ => false)
      (MAPFProblem.mk [] (fun _ _ _ => 1) (fun _ _ => true) (fun _ _ _ => []))
      [] [⟨⟨0, 0⟩, 0, 0, 0⟩, ⟨⟨1, 0⟩, 0, 1, 0⟩] ((100 : ℤ) : WithTop ℤ) 3 1
      (by decide)⟩
